import Mathlib

/-!
Verification of the YouTube MCP server core against its specification.

The development shallowly embeds the three core components of the
repository — the WebVTT caption normalizer `stripVttNonContent`, the
bounded-retry executor `withRetry` with its error classification, and the
TTL file cache `SimpleCache` — as executable Lean functions over
`List Char` / explicit state, mirroring the TypeScript source line by
line.  Strings are handled through their character lists; JavaScript
string primitives (`split`, `trim`, `includes`, `toLowerCase`, regular
expression matching and replacement) are reimplemented with the exact
semantics the source relies on.
-/

namespace YtMcp

/-- Whitespace test used to model both JS `trim` and the `\s` regex class. -/
def isWS (c : Char) : Bool := c.isWhitespace

/-- Decimal digit test modelling the `\d` regex class (`[0-9]`). -/
def isDig (c : Char) : Bool := c.isDigit

/-- JS `String.prototype.split` with a single-character separator:
`"".split(sep)` gives `[""]`, and separators delimit (possibly empty) fields. -/
def splitOnChar (sep : Char) : List Char → List (List Char)
  | [] => [[]]
  | c :: cs =>
    if c = sep then [] :: splitOnChar sep cs
    else
      match splitOnChar sep cs with
      | l :: ls => (c :: l) :: ls
      | [] => [[c]]

/-- Split a document into lines at the newline character, as
`vttContent.split("\n")` does in the source. -/
def splitLines (cs : List Char) : List (List Char) := splitOnChar '\n' cs

/-- JS `String.prototype.trim`: drop leading and trailing whitespace. -/
def trimChars (cs : List Char) : List Char :=
  (((cs.dropWhile isWS).reverse).dropWhile isWS).reverse

/-- Does the pattern occur at the very beginning of the list? -/
def startsWithB : List Char → List Char → Bool
  | [], _ => true
  | _ :: _, [] => false
  | p :: ps, c :: cs => (p = c) && startsWithB ps cs

/-- Does the matcher `m` accept some suffix of the list?  Shared engine for
substring search and for locating inline-tag occurrences. -/
def scanB (m : List Char → Bool) : List Char → Bool
  | [] => m []
  | c :: cs => m (c :: cs) || scanB m cs

/-- JS `String.prototype.includes`: substring occurrence test. -/
def containsSub (pat cs : List Char) : Bool := scanB (startsWithB pat) cs

/-- The cue arrow token `-->`. -/
def arrowPat : List Char := "-->".data

/-- The positioning attribute token `align:`. -/
def alignPat : List Char := "align:".data

/-- The positioning attribute token `position:`. -/
def positionPat : List Char := "position:".data

/-- The WebVTT structural marker token. -/
def webvttPat : List Char := "WEBVTT".data

/-! ### Inline-tag removal

The source cleans caption content lines with
`line.replace(/<\d{2}:\d{2}:\d{2}\.\d{3}>|<\/c>/g, "").replace(/<c>/g, "")`.
Both global replacements scan left to right, removing each match and
continuing after it; unmatched characters are kept. -/

/-- Match an inline timestamp tag `<HH:MM:SS.mmm>` at the head of the list,
returning the rest after it. -/
def tsTagMatch : List Char → Option (List Char)
  | '<' :: a :: b :: ':' :: c :: d :: ':' :: e :: f :: '.' :: g :: h :: i :: '>' :: rest =>
    if isDig a && isDig b && isDig c && isDig d && isDig e && isDig f &&
        isDig g && isDig h && isDig i then
      some rest
    else none
  | _ => none

/-- Match a closing style tag `</c>` at the head of the list. -/
def closeTagMatch : List Char → Option (List Char)
  | '<' :: '/' :: 'c' :: '>' :: rest => some rest
  | _ => none

/-- Match an opening style tag `<c>` at the head of the list. -/
def openTagMatch : List Char → Option (List Char)
  | '<' :: 'c' :: '>' :: rest => some rest
  | _ => none

/-- A match of the first replacement's regex at the current position: the
timestamp-tag alternative, then the `</c>` alternative. -/
def pass1Match (cs : List Char) : Option (List Char) :=
  match tsTagMatch cs with
  | some rest => some rest
  | none => closeTagMatch cs

/-- Left-to-right global-replace walk for the first pass.  Each step either
removes a whole match (continuing after it) or keeps one character, so the
step count is bounded by the length of the list, which the `fuel` argument
carries for structural recursion; it never runs out when started at the
list's length. -/
def pass1Go : Nat → List Char → List Char
  | _, [] => []
  | 0, c :: cs => c :: cs
  | fuel + 1, c :: cs =>
    match pass1Match (c :: cs) with
    | some rest => pass1Go fuel rest
    | none => c :: pass1Go fuel cs

/-- First replacement pass: remove inline timestamp tags `<HH:MM:SS.mmm>`
and closing style tags `</c>`. -/
def stripPass1 (cs : List Char) : List Char := pass1Go cs.length cs

/-- Left-to-right global-replace walk for the second pass (`<c>` removal). -/
def pass2Go : Nat → List Char → List Char
  | _, [] => []
  | 0, c :: cs => c :: cs
  | fuel + 1, c :: cs =>
    match openTagMatch (c :: cs) with
    | some rest => pass2Go fuel rest
    | none => c :: pass2Go fuel cs

/-- Second replacement pass: remove opening style tags `<c>`. -/
def stripPass2 (cs : List Char) : List Char := pass2Go cs.length cs

/-- Full inline-tag cleaning applied to a content line by the source. -/
def stripTags (cs : List Char) : List Char := stripPass2 (stripPass1 cs)

/-- Does an inline timestamp tag `<HH:MM:SS.mmm>` start here? -/
def tagAt (cs : List Char) : Bool :=
  match cs with
  | '<' :: a :: b :: ':' :: c :: d :: ':' :: e :: f :: '.' :: g :: h :: i :: '>' :: _ =>
    isDig a && isDig b && isDig c && isDig d && isDig e && isDig f &&
      isDig g && isDig h && isDig i
  | _ => false

/-- Does a style tag `</c>` or `<c>` start here? -/
def tagAt2 : List Char → Bool
  | '<' :: '/' :: 'c' :: '>' :: _ => true
  | '<' :: 'c' :: '>' :: _ => true
  | _ => false

/-- Does the line contain any inline tag that the cleaning passes remove? -/
def hasTag (cs : List Char) : Bool := scanB (fun s => tagAt s || tagAt2 s) cs

/-! ### Cue-timing recognition

Preserve-timing mode reformats a timing line via
`line.match(/(\d{2}:\d{2}:\d{2}\.\d{3})\s*-->\s*(\d{2}:\d{2}:\d{2}\.\d{3})/)`,
an unanchored leftmost search.  Because `-` and digits are not whitespace
the match at a given position is deterministic, so the regex engine is
modelled by a direct scanner. -/

/-- Parse a millisecond-precision timestamp `HH:MM:SS.mmm` (twelve
characters) at the head of the list, returning it and the rest. -/
def tsParse : List Char → Option (List Char × List Char)
  | a :: b :: ':' :: c :: d :: ':' :: e :: f :: '.' :: g :: h :: i :: rest =>
    if isDig a && isDig b && isDig c && isDig d && isDig e && isDig f &&
        isDig g && isDig h && isDig i then
      some ([a, b, ':', c, d, ':', e, f, '.', g, h, i], rest)
    else none
  | _ => none

/-- Try to match the full timing pattern at this position, returning the two
captured timestamps. -/
def timingAt (cs : List Char) : Option (List Char × List Char) :=
  match tsParse cs with
  | none => none
  | some (t1, r1) =>
    match r1.dropWhile isWS with
    | '-' :: '-' :: '>' :: r3 =>
      match tsParse (r3.dropWhile isWS) with
      | some (t2, _) => some (t1, t2)
      | none => none
    | _ => none

/-- Leftmost search for the timing pattern, as the unanchored JS regex does. -/
def timingSearch : List Char → Option (List Char × List Char)
  | [] => none
  | c :: cs =>
    match timingAt (c :: cs) with
    | some p => some p
    | none => timingSearch cs

/-- Does a line have the exact shape `HH:MM:SS.mmm --> HH:MM:SS.mmm`
(single spaces, nothing else)? -/
def exactTimingShape (cs : List Char) : Bool :=
  match tsParse cs with
  | some (_, ' ' :: '-' :: '-' :: '>' :: ' ' :: rest) =>
    match tsParse rest with
    | some (_, []) => true
    | _ => false
  | _ => false

/-! ### The normalization pipeline of `stripVttNonContent` -/

/-- Header scan of the source: starting from index 1, find the first blank
line immediately followed by a line containing `-->`; the header ends just
past that blank line, defaulting to index 1 when no such boundary exists.
The function walks `lines.slice(1)` carrying the index of its first
element. -/
def findHeaderEnd : List (List Char) → Nat → Nat
  | a :: b :: rest, i =>
    if trimChars a = [] && containsSub arrowPat b then i + 1
    else findHeaderEnd (b :: rest) (i + 1)
  | _, _ => 1

/-- Discard-timing walk: skip timing, positioning and blank lines; clean and
trim the remaining content lines, keeping the non-empty results. -/
def processDiscard : List (List Char) → List (List Char)
  | [] => []
  | l :: ls =>
    if containsSub arrowPat l then processDiscard ls
    else if containsSub alignPat l then processDiscard ls
    else if containsSub positionPat l then processDiscard ls
    else if trimChars l = [] then processDiscard ls
    else
      if trimChars (stripTags l) = [] then processDiscard ls
      else trimChars (stripTags l) :: processDiscard ls

/-- Preserve-timing walk: reformat timing lines that match the timing
pattern (dropping the ones that do not), and keep cleaned non-empty content
lines that carry no positioning attributes. -/
def processPreserve : List (List Char) → List (List Char)
  | [] => []
  | l :: ls =>
    if containsSub arrowPat l then
      match timingSearch l with
      | some (t1, t2) => (t1 ++ [' ', '-', '-', '>', ' '] ++ t2) :: processPreserve ls
      | none => processPreserve ls
    else if trimChars l = [] then processPreserve ls
    else if containsSub alignPat l then processPreserve ls
    else if containsSub positionPat l then processPreserve ls
    else
      if trimChars (stripTags l) = [] then processPreserve ls
      else trimChars (stripTags l) :: processPreserve ls

/-- Adjacent-duplicate suppression: keep an element when it differs from the
immediately preceding element of the input list. -/
def dedupAux (prev : List Char) : List (List Char) → List (List Char)
  | [] => []
  | x :: xs => if x = prev then dedupAux x xs else x :: dedupAux x xs

/-- Remove duplicate adjacent lines, as the final discard-mode loop does. -/
def dedupAdj : List (List Char) → List (List Char)
  | [] => []
  | x :: xs => x :: dedupAux x xs

/-- JS `Array.prototype.join("\n")`. -/
def joinLines : List (List Char) → List Char
  | [] => []
  | [l] => l
  | l :: ls => l ++ '\n' :: joinLines ls

/-- The lines remaining after the header skip: `lines.slice(headerEndIndex)`. -/
def contentLinesOf (v : List Char) : List (List Char) :=
  (splitLines v).drop (findHeaderEnd ((splitLines v).drop 1) 1)

/-- Core of `stripVttNonContent`, over the document's character list. -/
def stripVttCore (v : List Char) (preserveTiming : Bool) : List Char :=
  if trimChars v = [] then []
  else if (splitLines v).length < 2 || !containsSub webvttPat ((splitLines v).headD []) then []
  else if preserveTiming then joinLines (processPreserve (contentLinesOf v))
  else joinLines (dedupAdj (processDiscard (contentLinesOf v)))

/-- The caption normalizer `stripVttNonContent` of the source: strips
non-content elements from VTT subtitle text, optionally preserving timing. -/
def stripVttNonContent (vttContent : String) (preserveTiming : Bool := false) : String :=
  String.mk (stripVttCore vttContent.data preserveTiming)

/-- Re-wrap normalized text as a minimal synthetic WebVTT document:
a `WEBVTT` first line followed by the text. -/
def wrapVtt (s : String) : String := "WEBVTT\n" ++ s

/-- No blank line of the list is immediately followed by a line
containing `-->` (scanned over adjacent pairs, as the header loop does). -/
def noHeaderBoundary : List (List Char) → Bool
  | a :: b :: rest => !(trimChars a = [] && containsSub arrowPat b) && noHeaderBoundary (b :: rest)
  | _ => true

/-- No two adjacent elements of the list are equal. -/
def adjacentDistinct : List (List Char) → Bool
  | a :: b :: rest => !(a = b) && adjacentDistinct (b :: rest)
  | _ => true

/-! ### Error classification (`errors.ts`)

`YouTubeMCPError` carries a message, a code and a retryable flag.  The
`originalError` back-reference of the class is not modelled: no claim
depends on it beyond the wrapped message, which is carried explicitly. -/

/-- The classified error class of the source. -/
structure YouTubeMCPError where
  message : String
  code : String
  retryable : Bool
deriving DecidableEq

/-- A thrown JavaScript value reaching a catch block: either a classified
`YouTubeMCPError` or a plain `Error` identified by its message. -/
inductive JsError where
  | mcp (e : YouTubeMCPError)
  | plain (message : String)
deriving DecidableEq

/-- The `message` property of a thrown error. -/
def JsError.message : JsError → String
  | .mcp e => e.message
  | .plain m => m

/-- The values of the `ErrorCodes` constant of the source. -/
def ErrorCodesList : List String :=
  ["YT_DLP_NOT_FOUND", "VIDEO_NOT_FOUND", "INVALID_URL", "NETWORK_ERROR",
   "PERMISSION_DENIED", "FORMAT_NOT_AVAILABLE", "SUBTITLES_NOT_AVAILABLE",
   "CACHE_ERROR", "UNKNOWN_ERROR"]

/-- ASCII lowercasing, modelling JS `String.prototype.toLowerCase` on the
messages involved. -/
def toLowerChars (cs : List Char) : List Char := cs.map Char.toLower

/-- The `handleYtDlpError` classifier: pattern-match the lowercased message
and produce a classified error. -/
def handleYtDlpError (error : JsError) (url : String) : YouTubeMCPError :=
  let m := toLowerChars error.message.data
  if containsSub "video not found".data m || containsSub "404".data m then
    ⟨"Video not found or unavailable: " ++ url, "VIDEO_NOT_FOUND", false⟩
  else if containsSub "sign in to confirm".data m || containsSub "age".data m then
    ⟨"Video requires authentication or age verification", "PERMISSION_DENIED", false⟩
  else if containsSub "no subtitles".data m || containsSub "subtitles not available".data m then
    ⟨"No subtitles available for this video", "SUBTITLES_NOT_AVAILABLE", false⟩
  else if containsSub "format not available".data m || containsSub "requested format".data m then
    ⟨"Requested format not available for this video", "FORMAT_NOT_AVAILABLE", true⟩
  else if containsSub "network".data m || containsSub "connection".data m then
    ⟨"Network error occurred while processing video", "NETWORK_ERROR", true⟩
  else
    ⟨"Unexpected error: " ++ error.message, "UNKNOWN_ERROR", true⟩

/-- Is the thrown error retried by `withRetry`?  The source propagates only
`error instanceof YouTubeMCPError && !error.retryable` immediately; every
other failure (including plain, unclassified errors) is retried. -/
def retryableErr : JsError → Bool
  | .mcp e => e.retryable
  | .plain _ => true

/-- Outcome of a `withRetry` run: a returned value, a thrown error, or the
final `throw lastError!` reached with `lastError` still uninitialized
(throwing the JS value `undefined`). -/
inductive RetryOutcome (T : Type) where
  | ok (v : T)
  | threw (e : JsError)
  | threwUndefined
deriving DecidableEq

/-- Observable trace of a `withRetry` run: its outcome, the number of times
the operation thunk was invoked, and the total backoff wait accumulated. -/
structure RetryTrace (T : Type) where
  outcome : RetryOutcome T
  calls : Nat
  waited : Nat
deriving DecidableEq

/-- The terminal wrapper built after the final failed attempt:
`createMCPError` with the attempt count and the last message, code
`UNKNOWN_ERROR`, not retryable. -/
def wrapExhausted (maxRetries : Nat) (e : JsError) : JsError :=
  .mcp ⟨"Operation failed after " ++ toString maxRetries ++ " attempts: " ++ e.message,
        "UNKNOWN_ERROR", false⟩

/-- Loop body of `withRetry`.  The operation is modelled as a function from
the attempt number to that invocation's result.  `remaining` counts the loop
iterations left (`maxRetries - attempt + 1`), giving structural recursion;
`last` is the `lastError` variable, `none` while still uninitialized. -/
def withRetryAux {T : Type} (op : Nat → Except JsError T) (maxRetries delay : Nat) :
    Nat → Nat → Option JsError → RetryTrace T
  | _, 0, last =>
    ⟨match last with
      | some e => .threw e
      | none => .threwUndefined, 0, 0⟩
  | attempt, remaining + 1, _ =>
    match op attempt with
    | .ok v => ⟨.ok v, 1, 0⟩
    | .error e =>
      if retryableErr e = false then ⟨.threw e, 1, 0⟩
      else if attempt = maxRetries then ⟨.threw (wrapExhausted maxRetries e), 1, 0⟩
      else
        ⟨(withRetryAux op maxRetries delay (attempt + 1) remaining (some e)).outcome,
         (withRetryAux op maxRetries delay (attempt + 1) remaining (some e)).calls + 1,
         (withRetryAux op maxRetries delay (attempt + 1) remaining (some e)).waited + delay * attempt⟩

/-- The retry executor `withRetry` of the source, with its default budget of
3 attempts and base delay of 1000 ms. -/
def withRetry {T : Type} (op : Nat → Except JsError T)
    (maxRetries : Nat := 3) (delay : Nat := 1000) : RetryTrace T :=
  withRetryAux op maxRetries delay 1 maxRetries none

/-! ### Time parsing (`parseTimeToSeconds`)

The helper splits on `:` and converts each part with `Number`.  `Number` is
modelled on the fragment exercised here: a non-empty all-digit part parses
as a natural number and any other part yields `NaN` (`none`), `NaN`
propagating through the arithmetic.  A wrong number of parts throws a plain
(unclassified) `Error`. -/

/-- JS `Number()` on a colon-split time component (digit strings parse,
anything else is `NaN`). -/
def jsNumber (s : List Char) : Option Nat :=
  if s ≠ [] && s.all isDig then
    some (s.foldl (fun acc c => acc * 10 + (c.toNat - '0'.toNat)) 0)
  else none

/-- NaN-propagating arithmetic helper. -/
def nanAdd (a b : Option Nat) : Option Nat :=
  match a, b with
  | some x, some y => some (x + y)
  | _, _ => none

/-- NaN-propagating scaling helper. -/
def nanScale (k : Nat) (a : Option Nat) : Option Nat :=
  match a with
  | some x => some (k * x)
  | none => none

/-- The `parseTimeToSeconds` helper of the server: `MM:SS` or `HH:MM:SS`
converts to seconds, any other shape throws a plain `Error`. -/
def parseTimeToSeconds (timeStr : String) : Except JsError (Option Nat) :=
  let parts := (splitOnChar ':' timeStr.data).map jsNumber
  match parts with
  | [m, s] => .ok (nanAdd (nanScale 60 m) s)
  | [h, m, s] => .ok (nanAdd (nanAdd (nanScale 3600 h) (nanScale 60 m)) s)
  | _ => .error (.plain ("Invalid time format: " ++ timeStr ++ ". Use MM:SS or HH:MM:SS"))

/-! ### TTL cache (`SimpleCache`)

The cache directory is modelled as a map from file names to their parsed
contents; JSON serialization is assumed to round-trip, so the corrupted-file
branches of the source are never taken in the model.  `Date.now()` is an
explicit `now` parameter. -/

/-- One cached value as stored on disk. -/
structure CacheEntry (T : Type) where
  data : T
  timestamp : Nat
  expiresAt : Nat

namespace SimpleCache

/-- The cache directory: file name to parsed entry. -/
def Store (T : Type) := String → Option (CacheEntry T)

/-- The default TTL of 24 hours in milliseconds. -/
def defaultTTL : Nat := 24 * 60 * 60 * 1000

/-- Key sanitization of `getCacheFile`: every character outside
`[a-zA-Z0-9_-]` becomes an underscore. -/
def sanitizeChar (c : Char) : Char :=
  if c.isAlphanum || c = '_' || c = '-' then c else '_'

/-- The backing file name for a cache key. -/
def getCacheFile (key : String) : String :=
  String.mk (key.data.map sanitizeChar) ++ ".json"

/-- The `get` operation: absent file or expired entry gives `none`; an
expired entry's backing file is deleted as a side effect. -/
def get {T : Type} (store : Store T) (now : Nat) (key : String) :
    Option T × Store T :=
  match store (getCacheFile key) with
  | none => (none, store)
  | some e =>
    if now > e.expiresAt then
      (none, fun f => if f = getCacheFile key then none else store f)
    else (some e.data, store)

/-- The `set` operation: write an entry stamped `now` expiring at
`now + ttl` (a zero/omitted `ttl` falls back to the 24 h default, matching
`ttl || this.defaultTTL`). -/
def set {T : Type} (store : Store T) (now : Nat) (key : String) (v : T)
    (ttl : Nat := 0) : Store T :=
  fun f =>
    if f = getCacheFile key then
      some ⟨v, now, now + (if ttl = 0 then defaultTTL else ttl)⟩
    else store f

/-- The `cleanup` sweep: delete every stored entry whose expiry has passed. -/
def cleanup {T : Type} (store : Store T) (now : Nat) : Store T :=
  fun f =>
    match store f with
    | some e => if now > e.expiresAt then none else some e
    | none => none

end SimpleCache

/-! ### Concrete documents and operations used to exercise the theorems -/

/-- The caption document of the specification's concrete scenario. -/
def specDoc : String :=
  "WEBVTT\nKind: captions\nLanguage: en\n\n00:00:01.000 --> 00:00:02.000\nHello world\n\n00:00:02.000 --> 00:00:03.000\nHello world\n\n00:00:03.000 --> 00:00:04.000\nGoodbye"

/-- A two-line accepted document whose content line splices a cue arrow
together once the `<c>` tag is removed. -/
def spliceDoc : String := "WEBVTT\n--<c>>"

/-- An operation that fails with a plain (retryable-by-default) error twice
and succeeds on the third invocation. -/
def opThirdTry : Nat → Except JsError Nat :=
  fun n => if n = 3 then .ok 7 else .error (.plain "boom")

/-- An operation whose first failure is a classified non-retryable error. -/
def opDenied : Nat → Except JsError Nat :=
  fun _ => .error (.mcp ⟨"denied", "PERMISSION_DENIED", false⟩)

/-- An operation that always fails with a plain retryable error. -/
def opNetDown : Nat → Except JsError Nat :=
  fun _ => .error (.plain "net down")

/-! ## Supporting lemmas -/

theorem scanB_cons (m : List Char → Bool) (c : Char) (cs : List Char) :
    scanB m (c :: cs) = (m (c :: cs) || scanB m cs) := rfl

theorem scanB_of_matchHead {m : List Char → Bool} {cs : List Char}
    (h : m cs = true) : scanB m cs = true := by
  cases cs with
  | nil => simpa [scanB] using h
  | cons c cs => simp [scanB, h]

theorem scanB_append_right {m : List Char → Bool}
    (hm : ∀ s t, m s = true → m (s ++ t) = true) {cs : List Char} (t : List Char)
    (h : scanB m cs = true) : scanB m (cs ++ t) = true := by
  induction cs with
  | nil =>
    exact scanB_of_matchHead (by simpa using hm [] t (by simpa [scanB] using h))
  | cons c cs ih =>
    rcases Bool.or_eq_true_iff.mp (by simpa [scanB] using h) with h1 | h2
    · exact scanB_of_matchHead (by simpa using hm (c :: cs) t h1)
    · have := ih h2
      simp [scanB, this]

theorem scanB_append_left {m : List Char → Bool} (pre : List Char) {cs : List Char}
    (h : scanB m cs = true) : scanB m (pre ++ cs) = true := by
  induction pre with
  | nil => simpa using h
  | cons c p ih => simp [scanB, ih]

theorem scanB_infix {m : List Char → Bool}
    (hm : ∀ s t, m s = true → m (s ++ t) = true)
    (pre mid suf : List Char) (h : scanB m mid = true) :
    scanB m (pre ++ mid ++ suf) = true := by
  have h1 := scanB_append_right hm suf h
  have h2 := scanB_append_left (m := m) pre h1
  simpa using h2

theorem startsWithB_append {pat s : List Char} (t : List Char)
    (h : startsWithB pat s = true) : startsWithB pat (s ++ t) = true := by
  induction pat generalizing s with
  | nil => simp [startsWithB]
  | cons p ps ih =>
    cases s with
    | nil => simp [startsWithB] at h
    | cons c cs =>
      obtain ⟨h1, h2⟩ : p = c ∧ startsWithB ps cs = true := by simpa [startsWithB] using h
      simp [startsWithB, h1, ih h2]

theorem containsSub_infix {pat : List Char} (pre mid suf : List Char)
    (h : containsSub pat mid = true) : containsSub pat (pre ++ mid ++ suf) = true :=
  scanB_infix (fun _ t hs => startsWithB_append t hs) pre mid suf h

theorem containsSub_head_mem {p : Char} {ps l : List Char}
    (h : containsSub (p :: ps) l = true) : p ∈ l := by
  induction l with
  | nil => simp [containsSub, scanB, startsWithB] at h
  | cons c cs ih =>
    rcases Bool.or_eq_true_iff.mp (by simpa [containsSub, scanB] using h) with h1 | h2
    · obtain ⟨h3, _⟩ : p = c ∧ startsWithB ps cs = true := by simpa [startsWithB] using h1
      simp [h3]
    · exact List.mem_cons_of_mem _ (ih h2)

theorem dropWhile_head_false {p : Char → Bool} {l t : List Char} {c : Char}
    (h : l.dropWhile p = c :: t) : p c = false := by
  induction l with
  | nil => simp [List.dropWhile] at h
  | cons a l ih =>
    rw [List.dropWhile_cons] at h
    by_cases hp : p a = true
    · exact ih (by simpa [hp] using h)
    · have : a = c := by
        have := (by simpa [hp] using h : a :: l = c :: t)
        exact (List.cons.injEq .. ▸ this).1
      subst this
      simpa using hp

theorem dropWhile_eq_self_of_head {p : Char → Bool} {l : List Char}
    (h : ∀ c t, l = c :: t → p c = false) : l.dropWhile p = l := by
  cases l with
  | nil => simp
  | cons c t => simp [List.dropWhile_cons, h c t rfl]

theorem trim_decomp (cs : List Char) : ∃ pre suf, cs = pre ++ trimChars cs ++ suf := by
  refine ⟨cs.takeWhile isWS, ((cs.dropWhile isWS).reverse.takeWhile isWS).reverse, ?_⟩
  unfold trimChars
  conv_lhs => rw [← List.takeWhile_append_dropWhile (p := isWS) (l := cs)]
  rw [List.append_assoc]
  congr 1
  conv_lhs => rw [← List.reverse_reverse (cs.dropWhile isWS)]
  conv_lhs =>
    rw [← List.takeWhile_append_dropWhile (p := isWS) (l := (cs.dropWhile isWS).reverse)]
  rw [List.reverse_append]

theorem contains_of_contains_trim {pat cs : List Char}
    (h : containsSub pat (trimChars cs) = true) : containsSub pat cs = true := by
  obtain ⟨pre, suf, hd⟩ := trim_decomp cs
  rw [hd]
  exact containsSub_infix pre _ suf h

theorem contains_trim_false {pat cs : List Char}
    (h : containsSub pat cs = false) : containsSub pat (trimChars cs) = false := by
  by_contra hc
  rw [Bool.not_eq_false] at hc
  rw [contains_of_contains_trim hc] at h
  simp at h

theorem tagAt_append {s : List Char} (t : List Char) (h : tagAt s = true) :
    tagAt (s ++ t) = true := by
  unfold tagAt at h ⊢
  split at h
  next => simp_all [List.cons_append]
  next => simp_all

theorem tagAt2_append {s : List Char} (t : List Char) (h : tagAt2 s = true) :
    tagAt2 (s ++ t) = true := by
  unfold tagAt2 at h ⊢
  split at h
  next => simp [List.cons_append]
  next => simp [List.cons_append]
  next => simp_all

theorem hasTag_infix {mid : List Char} (pre suf : List Char)
    (h : hasTag mid = true) : hasTag (pre ++ mid ++ suf) = true := by
  refine scanB_infix ?_ pre mid suf h
  intro s t hs
  rcases Bool.or_eq_true_iff.mp hs with h1 | h2
  · simp [tagAt_append t h1]
  · simp [tagAt2_append t h2]

theorem hasTag_trim_false {cs : List Char} (h : hasTag cs = false) :
    hasTag (trimChars cs) = false := by
  by_contra hc
  rw [Bool.not_eq_false] at hc
  obtain ⟨pre, suf, hd⟩ := trim_decomp cs
  rw [hd, hasTag_infix pre suf hc] at h
  simp at h

theorem mem_dropWhile_of_not {p : Char → Bool} {c : Char} {l : List Char}
    (hm : c ∈ l) (hp : p c = false) : c ∈ l.dropWhile p := by
  induction l with
  | nil => simp at hm
  | cons a l ih =>
    rw [List.dropWhile_cons]
    by_cases ha : p a = true
    · rcases List.mem_cons.mp hm with h1 | h2
      · subst h1; rw [hp] at ha; exact absurd ha (by simp)
      · simpa [ha] using ih h2
    · simpa [ha] using hm

theorem trim_ne_nil_of_mem {c : Char} {cs : List Char}
    (hm : c ∈ cs) (hw : isWS c = false) : trimChars cs ≠ [] := by
  unfold trimChars
  have h1 : c ∈ cs.dropWhile isWS := mem_dropWhile_of_not hm hw
  have h2 : c ∈ (cs.dropWhile isWS).reverse := by simpa using h1
  have h3 : c ∈ ((cs.dropWhile isWS).reverse).dropWhile isWS := mem_dropWhile_of_not h2 hw
  intro hnil
  rw [List.reverse_eq_nil_iff] at hnil
  rw [hnil] at h3
  simp at h3

theorem mem_of_mem_trim {c : Char} {cs : List Char} (h : c ∈ trimChars cs) : c ∈ cs := by
  obtain ⟨pre, suf, hd⟩ := trim_decomp cs
  rw [hd]
  simp only [List.mem_append]
  exact Or.inl (Or.inr h)

theorem trim_idem (cs : List Char) : trimChars (trimChars cs) = trimChars cs := by
  unfold trimChars
  set A := cs.dropWhile isWS with hA
  set B := A.reverse.dropWhile isWS with hB
  have hBhead : ∀ c t, B = c :: t → isWS c = false := fun c t h => dropWhile_head_false (hB ▸ h)
  cases hBcase : B with
  | nil => simp [hBcase]
  | cons b bt =>
    have hAhead : ∀ c t, A = c :: t → isWS c = false := fun c t h => dropWhile_head_false (hA ▸ h)
    have hBlast : B.getLast? = A.reverse.getLast? := by
      rw [hB]
      conv_rhs => rw [← List.takeWhile_append_dropWhile (p := isWS) (l := A.reverse)]
      rw [List.getLast?_append_of_ne_nil _ (by rw [← hB, hBcase]; simp)]
    have hArev : A.reverse.getLast? = A.head? := by
      rw [← List.head?_reverse, List.reverse_reverse]
    have hBrevHead : ∀ c t, B.reverse = c :: t → isWS c = false := by
      intro c t h
      have : B.getLast? = some c := by
        rw [← List.head?_reverse, h]; rfl
      rw [hBlast, hArev] at this
      cases hAc : A with
      | nil => rw [hAc] at this; simp at this
      | cons a at' =>
        rw [hAc] at this
        simp only [List.head?_cons, Option.some.injEq] at this
        subst this
        exact hAhead _ _ hAc
    have step1 : List.dropWhile isWS (b :: bt).reverse = (b :: bt).reverse :=
      dropWhile_eq_self_of_head (fun c t h => hBrevHead c t (by rw [hBcase]; exact h))
    rw [step1, List.reverse_reverse]
    have step2 : List.dropWhile isWS (b :: bt) = b :: bt :=
      dropWhile_eq_self_of_head (fun c t h => hBhead c t (by rw [hBcase]; exact h))
    rw [step2]

theorem splitOnChar_ne_nil (sep : Char) (cs : List Char) : splitOnChar sep cs ≠ [] := by
  cases cs with
  | nil => simp [splitOnChar]
  | cons c cs =>
    rw [splitOnChar]
    by_cases h : c = sep
    · simp [h]
    · simp only [if_neg h]
      split <;> simp

theorem mem_splitOnChar_no_sep {sep : Char} {l cs : List Char}
    (h : l ∈ splitOnChar sep cs) : sep ∉ l := by
  induction cs generalizing l with
  | nil =>
    simp [splitOnChar] at h
    simp [h]
  | cons c cs ih =>
    rw [splitOnChar] at h
    by_cases hc : c = sep
    · rcases List.mem_cons.mp (by simpa [hc] using h) with h1 | h2
      · simp [h1]
      · exact ih h2
    · simp only [if_neg hc] at h
      cases hsp : splitOnChar sep cs with
      | nil => exact absurd hsp (splitOnChar_ne_nil sep cs)
      | cons l0 ls =>
        rw [hsp] at h
        rcases List.mem_cons.mp h with h1 | h2
        · subst h1
          intro hmem
          rcases List.mem_cons.mp hmem with h3 | h4
          · exact hc h3.symm
          · exact ih (by rw [hsp]; exact List.mem_cons_self l0 ls) h4
        · exact ih (by rw [hsp]; exact List.mem_cons_of_mem l0 h2)

theorem mem_of_mem_splitOnChar {sep a : Char} {l cs : List Char}
    (hl : l ∈ splitOnChar sep cs) (ha : a ∈ l) : a ∈ cs := by
  induction cs generalizing l with
  | nil =>
    simp [splitOnChar] at hl
    rw [hl] at ha
    simp at ha
  | cons c cs ih =>
    rw [splitOnChar] at hl
    by_cases hc : c = sep
    · rcases List.mem_cons.mp (by simpa [hc] using hl) with h1 | h2
      · rw [h1] at ha; simp at ha
      · exact List.mem_cons_of_mem c (ih h2 ha)
    · simp only [if_neg hc] at hl
      cases hsp : splitOnChar sep cs with
      | nil => exact absurd hsp (splitOnChar_ne_nil sep cs)
      | cons l0 ls =>
        rw [hsp] at hl
        rcases List.mem_cons.mp hl with h1 | h2
        · subst h1
          rcases List.mem_cons.mp ha with h3 | h4
          · simp [h3]
          · exact List.mem_cons_of_mem c
              (ih (by rw [hsp]; exact List.mem_cons_self l0 ls) h4)
        · exact List.mem_cons_of_mem c
            (ih (by rw [hsp]; exact List.mem_cons_of_mem l0 h2) ha)

theorem splitOnChar_no_sep {sep : Char} {cs : List Char} (h : sep ∉ cs) :
    splitOnChar sep cs = [cs] := by
  induction cs with
  | nil => simp [splitOnChar]
  | cons c cs ih =>
    have hc : ¬(c = sep) := fun he => h (by simp [he])
    have hcs : sep ∉ cs := fun hm => h (List.mem_cons_of_mem c hm)
    rw [splitOnChar, if_neg hc, ih hcs]

theorem splitOnChar_append_sep {sep : Char} {pre : List Char} (rest : List Char)
    (h : sep ∉ pre) : splitOnChar sep (pre ++ sep :: rest) = pre :: splitOnChar sep rest := by
  induction pre with
  | nil => simp [splitOnChar]
  | cons c p ih =>
    have hc : ¬(c = sep) := fun he => h (by simp [he])
    have hp : sep ∉ p := fun hm => h (List.mem_cons_of_mem c hm)
    rw [List.cons_append, splitOnChar, if_neg hc, ih hp]

theorem splitLines_joinLines {ls : List (List Char)} (hne : ls ≠ [])
    (hnl : ∀ l ∈ ls, ('\n' : Char) ∉ l) : splitLines (joinLines ls) = ls := by
  induction ls with
  | nil => exact absurd rfl hne
  | cons l ls ih =>
    cases ls with
    | nil =>
      rw [joinLines]
      exact splitOnChar_no_sep (hnl l (List.mem_cons_self l []))
    | cons l2 ls2 =>
      rw [show joinLines (l :: l2 :: ls2) = l ++ '\n' :: joinLines (l2 :: ls2) from rfl]
      unfold splitLines
      rw [splitOnChar_append_sep _ (hnl l (List.mem_cons_self _ _))]
      have := ih (by simp) (fun x hx => hnl x (List.mem_cons_of_mem l hx))
      rw [splitLines] at this
      rw [this]

theorem dedupAux_subset {x prev : List Char} {xs : List (List Char)}
    (h : x ∈ dedupAux prev xs) : x ∈ xs := by
  induction xs generalizing prev with
  | nil => simp [dedupAux] at h
  | cons y ys ih =>
    rw [dedupAux] at h
    by_cases hy : y = prev
    · simp only [if_pos hy] at h
      exact List.mem_cons_of_mem y (ih h)
    · simp only [if_neg hy] at h
      rcases List.mem_cons.mp h with h1 | h2
      · simp [h1]
      · exact List.mem_cons_of_mem y (ih h2)

theorem dedupAdj_subset {x : List Char} {xs : List (List Char)}
    (h : x ∈ dedupAdj xs) : x ∈ xs := by
  cases xs with
  | nil => simp [dedupAdj] at h
  | cons y ys =>
    rw [dedupAdj] at h
    rcases List.mem_cons.mp h with h1 | h2
    · simp [h1]
    · exact List.mem_cons_of_mem y (dedupAux_subset h2)

theorem mem_dedupAux {x : List Char} (prev : List Char) {xs : List (List Char)} (h : x ∈ xs) :
    x = prev ∨ x ∈ dedupAux prev xs := by
  induction xs generalizing prev with
  | nil => simp at h
  | cons y ys ih =>
    rw [dedupAux]
    by_cases hy : y = prev
    · simp only [if_pos hy]
      rcases List.mem_cons.mp h with h1 | h2
      · left; rw [h1, hy]
      · rcases ih y h2 with h3 | h4
        · left; rw [h3, hy]
        · right; exact h4
    · simp only [if_neg hy]
      rcases List.mem_cons.mp h with h1 | h2
      · right; simp [h1]
      · rcases ih y h2 with h3 | h4
        · right; rw [h3]; exact List.mem_cons_self y _
        · right; exact List.mem_cons_of_mem y h4

theorem mem_dedupAdj {x : List Char} {xs : List (List Char)} (h : x ∈ xs) :
    x ∈ dedupAdj xs := by
  cases xs with
  | nil => simp at h
  | cons y ys =>
    rw [dedupAdj]
    rcases List.mem_cons.mp h with h1 | h2
    · simp [h1]
    · rcases mem_dedupAux y h2 with h3 | h4
      · rw [h3]; exact List.mem_cons_self y _
      · exact List.mem_cons_of_mem y h4

theorem adjacentDistinct_cons_dedupAux (prev : List Char) (xs : List (List Char)) :
    adjacentDistinct (prev :: dedupAux prev xs) = true := by
  induction xs generalizing prev with
  | nil => simp [dedupAux, adjacentDistinct]
  | cons y ys ih =>
    rw [dedupAux]
    by_cases hy : y = prev
    · simp only [if_pos hy]
      rw [← hy]
      exact ih y
    · simp only [if_neg hy]
      rw [adjacentDistinct]
      have : ¬(prev = y) := fun he => hy he.symm
      simp only [this, decide_False, Bool.not_false, Bool.true_and]
      exact ih y

theorem adjacentDistinct_dedupAdj (xs : List (List Char)) :
    adjacentDistinct (dedupAdj xs) = true := by
  cases xs with
  | nil => simp [dedupAdj, adjacentDistinct]
  | cons y ys =>
    rw [dedupAdj]
    exact adjacentDistinct_cons_dedupAux y ys

theorem dedupAux_eq_self {prev : List Char} {xs : List (List Char)}
    (h : adjacentDistinct (prev :: xs) = true) : dedupAux prev xs = xs := by
  induction xs generalizing prev with
  | nil => simp [dedupAux]
  | cons y ys ih =>
    rw [adjacentDistinct] at h
    obtain ⟨h1, h2⟩ : ¬(prev = y) ∧ adjacentDistinct (y :: ys) = true := by
      simpa using h
    rw [dedupAux, if_neg (fun he => h1 he.symm), ih h2]

theorem dedupAdj_eq_self {xs : List (List Char)}
    (h : adjacentDistinct xs = true) : dedupAdj xs = xs := by
  cases xs with
  | nil => simp [dedupAdj]
  | cons y ys =>
    rw [dedupAdj, dedupAux_eq_self h]

theorem hasTag_cons_false {c : Char} {cs : List Char} (h : hasTag (c :: cs) = false) :
    hasTag cs = false := by
  unfold hasTag scanB at h
  unfold hasTag
  rcases Bool.or_eq_false_iff.mp h with ⟨_, h2⟩
  exact h2

theorem hasTag_cons_head_false {c : Char} {cs : List Char}
    (h : hasTag (c :: cs) = false) :
    tagAt (c :: cs) = false ∧ tagAt2 (c :: cs) = false := by
  unfold hasTag scanB at h
  rcases Bool.or_eq_false_iff.mp h with ⟨h1, _⟩
  exact Bool.or_eq_false_iff.mp h1

theorem tsTagMatch_shape {l r : List Char} (h : tsTagMatch l = some r) :
    tagAt l = true ∧ ∃ t, l = t ++ r := by
  unfold tsTagMatch at h
  split at h
  next a b c d e f g hh i rest =>
    split at h
    next hdig =>
      injection h with h1
      subst h1
      refine ⟨?_, ⟨['<', a, b, ':', c, d, ':', e, f, '.', g, hh, i, '>'], by simp⟩⟩
      unfold tagAt
      exact hdig
    next => exact absurd h (by simp)
  next => exact absurd h (by simp)

theorem closeTagMatch_shape {l r : List Char} (h : closeTagMatch l = some r) :
    tagAt2 l = true ∧ ∃ t, l = t ++ r := by
  unfold closeTagMatch at h
  split at h
  next rest =>
    injection h with h1
    subst h1
    exact ⟨rfl, ⟨['<', '/', 'c', '>'], by simp⟩⟩
  next => exact absurd h (by simp)

theorem openTagMatch_shape {l r : List Char} (h : openTagMatch l = some r) :
    tagAt2 l = true ∧ ∃ t, l = t ++ r := by
  unfold openTagMatch at h
  split at h
  next rest =>
    injection h with h1
    subst h1
    exact ⟨rfl, ⟨['<', 'c', '>'], by simp⟩⟩
  next => exact absurd h (by simp)

theorem pass1Match_none {c : Char} {cs : List Char}
    (h : hasTag (c :: cs) = false) : pass1Match (c :: cs) = none := by
  obtain ⟨h1, h2⟩ := hasTag_cons_head_false h
  unfold pass1Match
  cases hts : tsTagMatch (c :: cs) with
  | some r =>
    have := (tsTagMatch_shape hts).1
    rw [this] at h1
    simp at h1
  | none =>
    cases hcl : closeTagMatch (c :: cs) with
    | some r =>
      have := (closeTagMatch_shape hcl).1
      rw [this] at h2
      simp at h2
    | none => simp [hcl]

theorem openTagMatch_none {c : Char} {cs : List Char}
    (h : hasTag (c :: cs) = false) : openTagMatch (c :: cs) = none := by
  obtain ⟨_, h2⟩ := hasTag_cons_head_false h
  cases hop : openTagMatch (c :: cs) with
  | some r =>
    have := (openTagMatch_shape hop).1
    rw [this] at h2
    simp at h2
  | none => rfl

theorem pass1Go_id {fuel : Nat} {cs : List Char} (h : hasTag cs = false) :
    pass1Go fuel cs = cs := by
  induction fuel generalizing cs with
  | zero => cases cs <;> simp [pass1Go]
  | succ n ih =>
    cases cs with
    | nil => simp [pass1Go]
    | cons c cs2 =>
      rw [pass1Go, pass1Match_none h, ih (hasTag_cons_false h)]

theorem pass2Go_id {fuel : Nat} {cs : List Char} (h : hasTag cs = false) :
    pass2Go fuel cs = cs := by
  induction fuel generalizing cs with
  | zero => cases cs <;> simp [pass2Go]
  | succ n ih =>
    cases cs with
    | nil => simp [pass2Go]
    | cons c cs2 =>
      rw [pass2Go, openTagMatch_none h, ih (hasTag_cons_false h)]

theorem stripTags_id {cs : List Char} (h : hasTag cs = false) : stripTags cs = cs := by
  unfold stripTags stripPass1 stripPass2
  rw [pass1Go_id h, pass2Go_id h]

theorem pass1Match_suffix {c : Char} {cs rest : List Char}
    (h : pass1Match (c :: cs) = some rest) : ∃ t, c :: cs = t ++ rest := by
  unfold pass1Match at h
  cases hts : tsTagMatch (c :: cs) with
  | some r =>
    rw [hts] at h
    injection h with h1
    subst h1
    exact (tsTagMatch_shape hts).2
  | none =>
    rw [hts] at h
    exact (closeTagMatch_shape h).2

theorem mem_pass1Go {a : Char} {fuel : Nat} {cs : List Char}
    (h : a ∈ pass1Go fuel cs) : a ∈ cs := by
  induction fuel generalizing cs with
  | zero =>
    cases cs with
    | nil =>
      rw [pass1Go] at h
      exact h
    | cons c cs2 =>
      rw [pass1Go] at h
      exact h
  | succ n ih =>
    cases cs with
    | nil =>
      rw [pass1Go] at h
      exact h
    | cons c cs2 =>
      rw [pass1Go] at h
      cases hm : pass1Match (c :: cs2) with
      | some rest =>
        rw [hm] at h
        obtain ⟨t, ht⟩ := pass1Match_suffix hm
        rw [ht]
        exact List.mem_append.mpr (Or.inr (ih h))
      | none =>
        rw [hm] at h
        rcases List.mem_cons.mp h with h1 | h2
        · simp [h1]
        · exact List.mem_cons_of_mem c (ih h2)

theorem mem_pass2Go {a : Char} {fuel : Nat} {cs : List Char}
    (h : a ∈ pass2Go fuel cs) : a ∈ cs := by
  induction fuel generalizing cs with
  | zero =>
    cases cs with
    | nil =>
      rw [pass2Go] at h
      exact h
    | cons c cs2 =>
      rw [pass2Go] at h
      exact h
  | succ n ih =>
    cases cs with
    | nil =>
      rw [pass2Go] at h
      exact h
    | cons c cs2 =>
      rw [pass2Go] at h
      cases hm : openTagMatch (c :: cs2) with
      | some rest =>
        rw [hm] at h
        obtain ⟨t, ht⟩ := (openTagMatch_shape hm).2
        rw [ht]
        exact List.mem_append.mpr (Or.inr (ih h))
      | none =>
        rw [hm] at h
        rcases List.mem_cons.mp h with h1 | h2
        · simp [h1]
        · exact List.mem_cons_of_mem c (ih h2)

theorem mem_stripTags {c : Char} {cs : List Char} (h : c ∈ stripTags cs) : c ∈ cs :=
  mem_pass1Go (mem_pass2Go h)

theorem isDig_ne_newline {c : Char} (h : isDig c = true) : c ≠ '\n' := by
  intro hc
  rw [hc] at h
  exact absurd h (by decide)

theorem tsParse_shape {cs t r : List Char} (h : tsParse cs = some (t, r)) :
    (∀ s, tsParse (t ++ s) = some (t, s)) ∧ ('\n' : Char) ∉ t := by
  unfold tsParse at h
  split at h
  next a b c d e f g hh i rest =>
    split at h
    next hdig =>
      injection h with h2
      injection h2 with h3 h4
      subst h3
      obtain ⟨⟨⟨⟨⟨⟨⟨⟨ha, hb⟩, hc⟩, hd⟩, he⟩, hf⟩, hg⟩, hhh⟩, hi⟩ :
          ((((((((isDig a = true ∧ isDig b = true) ∧ isDig c = true) ∧ isDig d = true) ∧
            isDig e = true) ∧ isDig f = true) ∧ isDig g = true) ∧ isDig hh = true) ∧
          isDig i = true) := by simpa [Bool.and_eq_true] using hdig
      constructor
      · intro s
        rw [show ([a, b, ':', c, d, ':', e, f, '.', g, hh, i] ++ s) =
          (a :: b :: ':' :: c :: d :: ':' :: e :: f :: '.' :: g :: hh :: i :: s) from rfl]
        exact if_pos hdig
      · intro hmem
        simp only [List.mem_cons, List.not_mem_nil, or_false] at hmem
        rcases hmem with h | h | h | h | h | h | h | h | h | h | h | h <;>
          first
          | exact isDig_ne_newline (by assumption) h.symm
          | exact absurd h.symm (by decide)
    next => exact absurd h (by simp)
  next => exact absurd h (by simp)

theorem timingAt_shape {cs t1 t2 : List Char} (h : timingAt cs = some (t1, t2)) :
    ((∀ s, tsParse (t1 ++ s) = some (t1, s)) ∧ ('\n' : Char) ∉ t1) ∧
    ((∀ s, tsParse (t2 ++ s) = some (t2, s)) ∧ ('\n' : Char) ∉ t2) := by
  unfold timingAt at h
  cases hp : tsParse cs with
  | none => rw [hp] at h; exact absurd h (by simp)
  | some p =>
    obtain ⟨ta, ra⟩ := p
    rw [hp] at h
    split at h
    next heq => exact absurd heq (by simp)
    next ta2 ra2 heq =>
      obtain ⟨e1, e2⟩ : ta = ta2 ∧ ra = ra2 := by
        have h5 := Option.some.inj heq
        exact ⟨congrArg Prod.fst h5, congrArg Prod.snd h5⟩
      subst e1
      subst e2
      split at h
      next r3 heq2 =>
        split at h
        next tb rb heq3 =>
          have h6 := Option.some.inj h
          obtain ⟨f1, f2⟩ : ta = t1 ∧ tb = t2 :=
            ⟨congrArg Prod.fst h6, congrArg Prod.snd h6⟩
          subst f1
          subst f2
          exact ⟨tsParse_shape hp, tsParse_shape heq3⟩
        next heq3 => exact absurd h (by simp)
      next heq2 => exact absurd h (by simp)

theorem timingSearch_shape {cs t1 t2 : List Char} (h : timingSearch cs = some (t1, t2)) :
    ((∀ s, tsParse (t1 ++ s) = some (t1, s)) ∧ ('\n' : Char) ∉ t1) ∧
    ((∀ s, tsParse (t2 ++ s) = some (t2, s)) ∧ ('\n' : Char) ∉ t2) := by
  induction cs with
  | nil => simp [timingSearch] at h
  | cons c cs ih =>
    rw [timingSearch] at h
    cases ha : timingAt (c :: cs) with
    | some p =>
      rw [ha] at h
      obtain ⟨p1, p2⟩ := p
      obtain ⟨e1, e2⟩ : p1 = t1 ∧ p2 = t2 := by
        have := Option.some.inj h
        exact ⟨congrArg Prod.fst this, congrArg Prod.snd this⟩
      subst e1
      subst e2
      exact timingAt_shape ha
    | none =>
      rw [ha] at h
      exact ih h

theorem exactTimingShape_build {t1 t2 : List Char}
    (h1 : ∀ s, tsParse (t1 ++ s) = some (t1, s))
    (h2 : ∀ s, tsParse (t2 ++ s) = some (t2, s)) :
    exactTimingShape (t1 ++ [' ', '-', '-', '>', ' '] ++ t2) = true := by
  have h3 : tsParse t2 = some (t2, []) := by
    have := h2 []
    rwa [List.append_nil] at this
  unfold exactTimingShape
  rw [List.append_assoc, h1]
  show (match tsParse t2 with
    | some (_, []) => true
    | _ => false) = true
  rw [h3]

theorem arrow_in_timing (t1 t2 : List Char) :
    containsSub arrowPat (t1 ++ [' ', '-', '-', '>', ' '] ++ t2) = true := by
  have harr : arrowPat = ['-', '-', '>'] := rfl
  have hstart : startsWithB arrowPat ('-' :: '-' :: '>' :: ' ' :: t2) = true := by
    rw [harr]
    simp [startsWithB]
  have hin : containsSub arrowPat ([' ', '-', '-', '>', ' '] ++ t2) = true := by
    rw [show ([' ', '-', '-', '>', ' '] ++ t2) = (' ' :: '-' :: '-' :: '>' :: ' ' :: t2) from rfl]
    unfold containsSub scanB
    rw [show scanB (startsWithB arrowPat) ('-' :: '-' :: '>' :: ' ' :: t2) =
      (startsWithB arrowPat ('-' :: '-' :: '>' :: ' ' :: t2) ||
        scanB (startsWithB arrowPat) ('-' :: '>' :: ' ' :: t2)) from rfl]
    rw [hstart]
    simp
  rw [List.append_assoc]
  exact scanB_append_left _ hin

theorem processDiscard_cons_subset (x : List Char) (xs : List (List Char)) :
    ∀ y ∈ processDiscard xs, y ∈ processDiscard (x :: xs) := by
  intro y hy
  rw [processDiscard]
  by_cases h1 : containsSub arrowPat x = true
  · rw [if_pos h1]; exact hy
  · rw [if_neg h1]
    by_cases h2 : containsSub alignPat x = true
    · rw [if_pos h2]; exact hy
    · rw [if_neg h2]
      by_cases h3 : containsSub positionPat x = true
      · rw [if_pos h3]; exact hy
      · rw [if_neg h3]
        by_cases h4 : trimChars x = []
        · rw [if_pos h4]; exact hy
        · rw [if_neg h4]
          by_cases h5 : trimChars (stripTags x) = []
          · rw [if_pos h5]; exact hy
          · rw [if_neg h5]; exact List.mem_cons_of_mem _ hy

theorem processDiscard_spec {l : List Char} {L : List (List Char)}
    (h : l ∈ processDiscard L) :
    ∃ src, src ∈ L ∧ containsSub arrowPat src = false ∧ containsSub alignPat src = false ∧
      containsSub positionPat src = false ∧ l = trimChars (stripTags src) ∧ l ≠ [] := by
  induction L with
  | nil => simp [processDiscard] at h
  | cons x xs ih =>
    rw [processDiscard] at h
    by_cases h1 : containsSub arrowPat x = true
    · rw [if_pos h1] at h
      obtain ⟨src, hs, rest⟩ := ih h
      exact ⟨src, List.mem_cons_of_mem x hs, rest⟩
    · rw [if_neg h1] at h
      by_cases h2 : containsSub alignPat x = true
      · rw [if_pos h2] at h
        obtain ⟨src, hs, rest⟩ := ih h
        exact ⟨src, List.mem_cons_of_mem x hs, rest⟩
      · rw [if_neg h2] at h
        by_cases h3 : containsSub positionPat x = true
        · rw [if_pos h3] at h
          obtain ⟨src, hs, rest⟩ := ih h
          exact ⟨src, List.mem_cons_of_mem x hs, rest⟩
        · rw [if_neg h3] at h
          by_cases h4 : trimChars x = []
          · rw [if_pos h4] at h
            obtain ⟨src, hs, rest⟩ := ih h
            exact ⟨src, List.mem_cons_of_mem x hs, rest⟩
          · rw [if_neg h4] at h
            by_cases h5 : trimChars (stripTags x) = []
            · rw [if_pos h5] at h
              obtain ⟨src, hs, rest⟩ := ih h
              exact ⟨src, List.mem_cons_of_mem x hs, rest⟩
            · rw [if_neg h5] at h
              rcases List.mem_cons.mp h with h6 | h7
              · exact ⟨x, List.mem_cons_self x xs, Bool.not_eq_true _ ▸ h1,
                  Bool.not_eq_true _ ▸ h2, Bool.not_eq_true _ ▸ h3, h6,
                  by rw [h6]; exact h5⟩
              · obtain ⟨src, hs, rest⟩ := ih h7
                exact ⟨src, List.mem_cons_of_mem x hs, rest⟩

theorem processDiscard_mem {src : List Char} {L : List (List Char)}
    (hmem : src ∈ L) (h1 : containsSub arrowPat src = false)
    (h2 : containsSub alignPat src = false) (h3 : containsSub positionPat src = false)
    (h4 : trimChars src ≠ []) (h5 : trimChars (stripTags src) ≠ []) :
    trimChars (stripTags src) ∈ processDiscard L := by
  induction L with
  | nil => simp at hmem
  | cons x xs ih =>
    rcases List.mem_cons.mp hmem with he | ht
    · subst he
      rw [processDiscard, if_neg (by simp [h1]), if_neg (by simp [h2]),
        if_neg (by simp [h3]), if_neg h4, if_neg h5]
      exact List.mem_cons_self _ _
    · exact processDiscard_cons_subset x xs _ (ih ht)

theorem processDiscard_eq_self {L : List (List Char)}
    (h : ∀ l ∈ L, containsSub arrowPat l = false ∧ containsSub alignPat l = false ∧
      containsSub positionPat l = false ∧ hasTag l = false ∧ trimChars l = l ∧ l ≠ []) :
    processDiscard L = L := by
  induction L with
  | nil => rfl
  | cons x xs ih =>
    obtain ⟨h1, h2, h3, h4, h5, h6⟩ := h x (List.mem_cons_self x xs)
    rw [processDiscard, if_neg (by simp [h1]), if_neg (by simp [h2]),
      if_neg (by simp [h3]), if_neg (by rw [h5]; exact h6)]
    rw [stripTags_id h4, h5, if_neg h6]
    rw [ih (fun l hl => h l (List.mem_cons_of_mem x hl))]

theorem processPreserve_cons_subset (x : List Char) (xs : List (List Char)) :
    ∀ y ∈ processPreserve xs, y ∈ processPreserve (x :: xs) := by
  intro y hy
  rw [processPreserve]
  by_cases h1 : containsSub arrowPat x = true
  · rw [if_pos h1]
    cases hts : timingSearch x with
    | some p =>
      obtain ⟨t1, t2⟩ := p
      exact List.mem_cons_of_mem _ hy
    | none => exact hy
  · rw [if_neg h1]
    by_cases h4 : trimChars x = []
    · rw [if_pos h4]; exact hy
    · rw [if_neg h4]
      by_cases h2 : containsSub alignPat x = true
      · rw [if_pos h2]; exact hy
      · rw [if_neg h2]
        by_cases h3 : containsSub positionPat x = true
        · rw [if_pos h3]; exact hy
        · rw [if_neg h3]
          by_cases h5 : trimChars (stripTags x) = []
          · rw [if_pos h5]; exact hy
          · rw [if_neg h5]; exact List.mem_cons_of_mem _ hy

theorem processPreserve_spec {l : List Char} {L : List (List Char)}
    (h : l ∈ processPreserve L) :
    (∃ t1 t2, l = t1 ++ [' ', '-', '-', '>', ' '] ++ t2 ∧
      ((∀ s, tsParse (t1 ++ s) = some (t1, s)) ∧ ('\n' : Char) ∉ t1) ∧
      ((∀ s, tsParse (t2 ++ s) = some (t2, s)) ∧ ('\n' : Char) ∉ t2)) ∨
    (∃ src, src ∈ L ∧ containsSub arrowPat src = false ∧ containsSub alignPat src = false ∧
      containsSub positionPat src = false ∧ l = trimChars (stripTags src) ∧ l ≠ []) := by
  induction L with
  | nil => simp [processPreserve] at h
  | cons x xs ih =>
    have lift : (∃ src, src ∈ xs ∧ containsSub arrowPat src = false ∧
        containsSub alignPat src = false ∧ containsSub positionPat src = false ∧
        l = trimChars (stripTags src) ∧ l ≠ []) →
        (∃ src, src ∈ x :: xs ∧ containsSub arrowPat src = false ∧
        containsSub alignPat src = false ∧ containsSub positionPat src = false ∧
        l = trimChars (stripTags src) ∧ l ≠ []) := by
      rintro ⟨src, hs, rest⟩
      exact ⟨src, List.mem_cons_of_mem x hs, rest⟩
    rw [processPreserve] at h
    by_cases h1 : containsSub arrowPat x = true
    · rw [if_pos h1] at h
      cases hts : timingSearch x with
      | some p =>
        obtain ⟨t1, t2⟩ := p
        rw [hts] at h
        rcases List.mem_cons.mp h with h5 | h6
        · exact Or.inl ⟨t1, t2, h5, (timingSearch_shape hts).1, (timingSearch_shape hts).2⟩
        · rcases ih h6 with hl | hr
          · exact Or.inl hl
          · exact Or.inr (lift hr)
      | none =>
        rw [hts] at h
        rcases ih h with hl | hr
        · exact Or.inl hl
        · exact Or.inr (lift hr)
    · rw [if_neg h1] at h
      by_cases h4 : trimChars x = []
      · rw [if_pos h4] at h
        rcases ih h with hl | hr
        · exact Or.inl hl
        · exact Or.inr (lift hr)
      · rw [if_neg h4] at h
        by_cases h2 : containsSub alignPat x = true
        · rw [if_pos h2] at h
          rcases ih h with hl | hr
          · exact Or.inl hl
          · exact Or.inr (lift hr)
        · rw [if_neg h2] at h
          by_cases h3 : containsSub positionPat x = true
          · rw [if_pos h3] at h
            rcases ih h with hl | hr
            · exact Or.inl hl
            · exact Or.inr (lift hr)
          · rw [if_neg h3] at h
            by_cases h5 : trimChars (stripTags x) = []
            · rw [if_pos h5] at h
              rcases ih h with hl | hr
              · exact Or.inl hl
              · exact Or.inr (lift hr)
            · rw [if_neg h5] at h
              rcases List.mem_cons.mp h with h6 | h7
              · exact Or.inr ⟨x, List.mem_cons_self x xs, Bool.not_eq_true _ ▸ h1,
                  Bool.not_eq_true _ ▸ h2, Bool.not_eq_true _ ▸ h3, h6,
                  by rw [h6]; exact h5⟩
              · rcases ih h7 with hl | hr
                · exact Or.inl hl
                · exact Or.inr (lift hr)

theorem processPreserve_mem {src : List Char} {L : List (List Char)}
    (hmem : src ∈ L) (h1 : containsSub arrowPat src = false)
    (h2 : containsSub alignPat src = false) (h3 : containsSub positionPat src = false)
    (h4 : trimChars src ≠ []) (h5 : trimChars (stripTags src) ≠ []) :
    trimChars (stripTags src) ∈ processPreserve L := by
  induction L with
  | nil => simp at hmem
  | cons x xs ih =>
    rcases List.mem_cons.mp hmem with he | ht
    · subst he
      rw [processPreserve, if_neg (by simp [h1]), if_neg h4, if_neg (by simp [h2]),
        if_neg (by simp [h3]), if_neg h5]
      exact List.mem_cons_self _ _
    · exact processPreserve_cons_subset x xs _ (ih ht)

theorem findHeaderEnd_one {L : List (List Char)} (h : noHeaderBoundary L = true) :
    ∀ i, findHeaderEnd L i = 1 := by
  induction L with
  | nil => intro i; rfl
  | cons a L ih =>
    intro i
    cases L with
    | nil => rfl
    | cons b R =>
      rw [noHeaderBoundary] at h
      obtain ⟨h1, h2⟩ := Bool.and_eq_true_iff.mp h
      have hfalse : (decide (trimChars a = []) && containsSub arrowPat b) = false := by
        cases hb : (decide (trimChars a = []) && containsSub arrowPat b) with
        | false => rfl
        | true => rw [hb] at h1; exact absurd h1 (by decide)
      rw [findHeaderEnd, if_neg (by simp [hfalse])]
      exact ih h2 (i + 1)

theorem noHeaderBoundary_of_nonblank {L : List (List Char)}
    (h : ∀ l ∈ L, trimChars l ≠ []) : noHeaderBoundary L = true := by
  induction L with
  | nil => rfl
  | cons a L ih =>
    cases L with
    | nil => rfl
    | cons b R =>
      rw [noHeaderBoundary]
      have ha := h a (List.mem_cons_self _ _)
      have hrest := ih (fun l hl => h l (List.mem_cons_of_mem a hl))
      simp [ha, hrest]

theorem stripVttCore_rejected {v : List Char} (pt : Bool)
    (h : trimChars v = [] ∨ (splitLines v).length < 2 ∨
      containsSub webvttPat ((splitLines v).headD []) = false) :
    stripVttCore v pt = [] := by
  unfold stripVttCore
  by_cases htrim : trimChars v = []
  · rw [if_pos htrim]
  · rw [if_neg htrim]
    rcases h with h | h | h
    · exact absurd h htrim
    · rw [if_pos (by simp [h])]
    · rw [if_pos (by rw [List.headD_eq_head?_getD] at h; simp [h])]

theorem stripVttCore_accepted {v : List Char} (pt : Bool)
    (htrim : trimChars v ≠ [])
    (hlen : ¬((splitLines v).length < 2))
    (hmark : containsSub webvttPat ((splitLines v).headD []) = true) :
    stripVttCore v pt =
      if pt then joinLines (processPreserve (contentLinesOf v))
      else joinLines (dedupAdj (processDiscard (contentLinesOf v))) := by
  unfold stripVttCore
  rw [if_neg htrim,
    if_neg (by rw [List.headD_eq_head?_getD] at hmark; simp [hlen, hmark])]

theorem splitLines_no_newline {l cs : List Char} (h : l ∈ splitLines cs) :
    ('\n' : Char) ∉ l := mem_splitOnChar_no_sep h

theorem discard_out_spec {v l : List Char}
    (h : l ∈ dedupAdj (processDiscard (contentLinesOf v))) :
    ∃ src, src ∈ splitLines v ∧ containsSub arrowPat src = false ∧
      containsSub alignPat src = false ∧ containsSub positionPat src = false ∧
      l = trimChars (stripTags src) ∧ l ≠ [] := by
  obtain ⟨src, hs, rest⟩ := processDiscard_spec (dedupAdj_subset h)
  exact ⟨src, List.drop_subset _ _ hs, rest⟩

theorem content_line_no_newline {v src l : List Char} (hs : src ∈ splitLines v)
    (hl : l = trimChars (stripTags src)) : ('\n' : Char) ∉ l := by
  intro hc
  rw [hl] at hc
  exact splitLines_no_newline hs (mem_stripTags (mem_of_mem_trim hc))

theorem splitLines_joinLines_cases {X : List (List Char)}
    (hnl : ∀ l ∈ X, ('\n' : Char) ∉ l) :
    splitLines (joinLines X) = X ∨ splitLines (joinLines X) = [[]] := by
  cases hX : X with
  | nil =>
    right
    rw [show joinLines [] = [] from rfl]
    rfl
  | cons y ys =>
    left
    rw [← hX]
    exact splitLines_joinLines (by rw [hX]; simp) hnl

theorem stripVttCore_accepted_discard {v : List Char}
    (htrim : trimChars v ≠ [])
    (hlen : ¬((splitLines v).length < 2))
    (hmark : containsSub webvttPat ((splitLines v).headD []) = true) :
    stripVttCore v false = joinLines (dedupAdj (processDiscard (contentLinesOf v))) := by
  rw [stripVttCore_accepted false htrim hlen hmark]
  simp

theorem stripVttCore_accepted_preserve {v : List Char}
    (htrim : trimChars v ≠ [])
    (hlen : ¬((splitLines v).length < 2))
    (hmark : containsSub webvttPat ((splitLines v).headD []) = true) :
    stripVttCore v true = joinLines (processPreserve (contentLinesOf v)) := by
  rw [stripVttCore_accepted true htrim hlen hmark]
  simp

theorem empty_output_ok :
    adjacentDistinct (splitLines ([] : List Char)) = true ∧
    ∀ l ∈ splitLines ([] : List Char),
      containsSub arrowPat l = false ∧ containsSub alignPat l = false ∧
        containsSub positionPat l = false := by decide

/-! ## Claim C1

As stated the claim is refuted: inline-tag removal can splice a `-->` token
together (see `claim_C1_counterexample`), so an emitted line may contain the
forbidden tokens.  The adjacent-duplicate conjunct holds unconditionally;
the token-freedom conjunct holds for every document none of whose lines
contains an inline tag occurrence. -/

/-- C1 (amended): for every caption document, the discard-timing output has
no two adjacent identical lines; and provided no line of the document
contains an inline tag occurrence (`<HH:MM:SS.mmm>`, `</c>` or `<c>`), no
emitted line contains `-->`, `align:` or `position:`. -/
theorem claim_C1_discard_output (vttContent : String) :
    adjacentDistinct (splitLines (stripVttNonContent vttContent false).data) = true ∧
    ((∀ l ∈ splitLines vttContent.data, hasTag l = false) →
      ∀ l ∈ splitLines (stripVttNonContent vttContent false).data,
        containsSub arrowPat l = false ∧ containsSub alignPat l = false ∧
          containsSub positionPat l = false) := by
  have hout : (stripVttNonContent vttContent false).data = stripVttCore vttContent.data false := rfl
  rw [hout]
  by_cases h1 : trimChars vttContent.data = []
  · rw [stripVttCore_rejected false (Or.inl h1)]
    exact ⟨empty_output_ok.1, fun _ => empty_output_ok.2⟩
  by_cases h2 : (splitLines vttContent.data).length < 2
  · rw [stripVttCore_rejected false (Or.inr (Or.inl h2))]
    exact ⟨empty_output_ok.1, fun _ => empty_output_ok.2⟩
  by_cases h3 : containsSub webvttPat ((splitLines vttContent.data).headD []) = true
  case neg =>
    rw [stripVttCore_rejected false (Or.inr (Or.inr (by simpa using h3)))]
    exact ⟨empty_output_ok.1, fun _ => empty_output_ok.2⟩
  case pos =>
    rw [stripVttCore_accepted_discard h1 h2 h3]
    have hnl : ∀ l ∈ dedupAdj (processDiscard (contentLinesOf vttContent.data)),
        ('\n' : Char) ∉ l := by
      intro l hl
      obtain ⟨src, hs, _, _, _, heq, _⟩ := discard_out_spec hl
      exact content_line_no_newline hs heq
    rcases splitLines_joinLines_cases hnl with hsp | hsp
    · rw [hsp]
      refine ⟨adjacentDistinct_dedupAdj _, fun hclean l hl => ?_⟩
      obtain ⟨src, hs, ha, hal, hpp, heq, _⟩ := discard_out_spec hl
      have htag : hasTag src = false := hclean src hs
      rw [heq, stripTags_id htag]
      exact ⟨contains_trim_false ha, contains_trim_false hal, contains_trim_false hpp⟩
    · rw [hsp]
      refine ⟨rfl, fun _ l hl => ?_⟩
      have : l = [] := by simpa using hl
      rw [this]
      exact ⟨by decide, by decide, by decide⟩

/-- C1 counterexample: the accepted document `"WEBVTT\n--<c>>"` normalizes,
in discard-timing mode, to the single line `-->`, which contains the
forbidden `-->` token (tag removal spliced it together). -/
theorem claim_C1_counterexample :
    stripVttNonContent spliceDoc false = "-->" ∧
    (splitLines (stripVttNonContent spliceDoc false).data).any
      (fun l => containsSub arrowPat l) = true := by decide

/-- C1 witness: the amended theorem applied to the specification's concrete
scenario document, whose lines carry no inline tags. -/
theorem claim_C1_witness :
    adjacentDistinct (splitLines (stripVttNonContent specDoc false).data) = true ∧
    ((∀ l ∈ splitLines specDoc.data, hasTag l = false) ∧
      ∀ l ∈ splitLines (stripVttNonContent specDoc false).data,
        containsSub arrowPat l = false ∧ containsSub alignPat l = false ∧
          containsSub positionPat l = false) :=
  ⟨(claim_C1_discard_output specDoc).1,
    by decide, (claim_C1_discard_output specDoc).2 (by decide)⟩

theorem preserve_out_no_newline {v l : List Char}
    (h : l ∈ processPreserve (contentLinesOf v)) : ('\n' : Char) ∉ l := by
  rcases processPreserve_spec h with
    ⟨t1, t2, heq, ⟨_, hn1⟩, ⟨_, hn2⟩⟩ | ⟨src, hs, _, _, _, heq, _⟩
  · rw [heq]
    intro hc
    rcases List.mem_append.mp hc with hc1 | hc2
    · rcases List.mem_append.mp hc1 with hc3 | hc4
      · exact hn1 hc3
      · exact absurd hc4 (by decide)
    · exact hn2 hc2
  · exact content_line_no_newline (List.drop_subset _ _ hs) heq

/-! ## Claim C2

As stated the claim is refuted: tag removal can splice a `-->` token into a
content line in preserve-timing mode too (see `claim_C2_counterexample`),
giving an emitted line that contains `-->` without the exact timing shape.
For documents without inline-tag occurrences the claim holds: every emitted
line containing `-->` has the exact reformatted shape, and every other
emitted line is the trimmed text of a non-timing document line, so an
unmatched (malformed) cue timing line contributes nothing to the output. -/

/-- C2 (amended): for every caption document none of whose lines contains an
inline tag occurrence, preserve-timing normalization emits, among lines
containing `-->`, only lines of the exact shape `HH:MM:SS.mmm -->
HH:MM:SS.mmm`; every other emitted line is the trimmed text of some document
line not containing `-->`, so a cue timing line whose timing tokens fail to
match is dropped entirely with no partial text emitted for it. -/
theorem claim_C2_preserve_output (vttContent : String)
    (hclean : ∀ l ∈ splitLines vttContent.data, hasTag l = false) :
    ∀ l ∈ splitLines (stripVttNonContent vttContent true).data,
      (containsSub arrowPat l = true → exactTimingShape l = true) ∧
      (containsSub arrowPat l = false →
        l = [] ∨ ∃ src, src ∈ splitLines vttContent.data ∧
          containsSub arrowPat src = false ∧ l = trimChars src) := by
  have hout : (stripVttNonContent vttContent true).data = stripVttCore vttContent.data true := rfl
  rw [hout]
  have hempty : ∀ l, l ∈ splitLines ([] : List Char) →
      (containsSub arrowPat l = true → exactTimingShape l = true) ∧
      (containsSub arrowPat l = false →
        l = [] ∨ ∃ src, src ∈ splitLines vttContent.data ∧
          containsSub arrowPat src = false ∧ l = trimChars src) := by
    intro l hl
    rw [show splitLines ([] : List Char) = [[]] from rfl] at hl
    have : l = [] := by simpa using hl
    rw [this]
    exact ⟨fun hc => absurd hc (by decide), fun _ => Or.inl rfl⟩
  by_cases h1 : trimChars vttContent.data = []
  · rw [stripVttCore_rejected true (Or.inl h1)]
    exact hempty
  by_cases h2 : (splitLines vttContent.data).length < 2
  · rw [stripVttCore_rejected true (Or.inr (Or.inl h2))]
    exact hempty
  by_cases h3 : containsSub webvttPat ((splitLines vttContent.data).headD []) = true
  case neg =>
    rw [stripVttCore_rejected true (Or.inr (Or.inr (by simpa using h3)))]
    exact hempty
  case pos =>
    rw [stripVttCore_accepted_preserve h1 h2 h3]
    rcases splitLines_joinLines_cases
        (fun l hl => preserve_out_no_newline (v := vttContent.data) hl) with hsp | hsp
    · rw [hsp]
      intro l hl
      rcases processPreserve_spec hl with
        ⟨t1, t2, heq, ⟨hp1, _⟩, ⟨hp2, _⟩⟩ | ⟨src, hs, ha, _, _, heq, _⟩
      · constructor
        · intro _
          rw [heq]
          exact exactTimingShape_build hp1 hp2
        · intro hfalse
          rw [heq, arrow_in_timing t1 t2] at hfalse
          exact absurd hfalse (by decide)
      · have htag : hasTag src = false := hclean src (List.drop_subset _ _ hs)
        rw [heq, stripTags_id htag]
        constructor
        · intro hc
          rw [contains_trim_false ha] at hc
          exact absurd hc (by decide)
        · intro _
          exact Or.inr ⟨src, List.drop_subset _ _ hs, ha, rfl⟩
    · rw [hsp]
      exact hempty

/-- C2 counterexample: in preserve-timing mode the accepted document
`"WEBVTT\n--<c>>"` emits the single line `-->`, which contains `-->` but is
not of the exact `HH:MM:SS.mmm --> HH:MM:SS.mmm` shape. -/
theorem claim_C2_counterexample :
    stripVttNonContent spliceDoc true = "-->" ∧
    ((splitLines (stripVttNonContent spliceDoc true).data).any
      (fun l => containsSub arrowPat l && !exactTimingShape l)) = true := by decide

/-- C2 witness: the amended theorem applied to the specification's concrete
scenario document. -/
theorem claim_C2_witness :
    (∀ l ∈ splitLines specDoc.data, hasTag l = false) ∧
    (∀ l ∈ splitLines (stripVttNonContent specDoc true).data,
      (containsSub arrowPat l = true → exactTimingShape l = true) ∧
      (containsSub arrowPat l = false →
        l = [] ∨ ∃ src, src ∈ splitLines specDoc.data ∧
          containsSub arrowPat src = false ∧ l = trimChars src)) :=
  ⟨by decide, claim_C2_preserve_output specDoc (by decide)⟩

/-! ## Claim C7

Round-trip idempotence fails as stated: tag removal can splice a `-->`
token into the first output, which the second normalization then drops (see
`claim_C7_counterexample`).  For documents without inline-tag occurrences
the round trip is the identity. -/

/-- C7 (amended): for every document none of whose lines contains an inline
tag occurrence, re-wrapping the discard-timing output as a minimal synthetic
WebVTT document and normalizing again in discard-timing mode yields exactly
the first output. -/
theorem claim_C7_idempotent (vttContent : String)
    (hclean : ∀ l ∈ splitLines vttContent.data, hasTag l = false) :
    stripVttNonContent (wrapVtt (stripVttNonContent vttContent false)) false =
      stripVttNonContent vttContent false := by
  have hzero : stripVttNonContent (wrapVtt "") false = "" := by decide
  by_cases h1 : trimChars vttContent.data = []
  · have h0 : stripVttNonContent vttContent false = "" := by
      unfold stripVttNonContent
      rw [stripVttCore_rejected false (Or.inl h1)]
    rw [h0, hzero]
  by_cases h2 : (splitLines vttContent.data).length < 2
  · have h0 : stripVttNonContent vttContent false = "" := by
      unfold stripVttNonContent
      rw [stripVttCore_rejected false (Or.inr (Or.inl h2))]
    rw [h0, hzero]
  by_cases h3 : containsSub webvttPat ((splitLines vttContent.data).headD []) = true
  case neg =>
    have h0 : stripVttNonContent vttContent false = "" := by
      unfold stripVttNonContent
      rw [stripVttCore_rejected false (Or.inr (Or.inr (by simpa using h3)))]
    rw [h0, hzero]
  case pos =>
    have hform : stripVttNonContent vttContent false =
        String.mk (joinLines (dedupAdj (processDiscard (contentLinesOf vttContent.data)))) := by
      unfold stripVttNonContent
      rw [stripVttCore_accepted_discard h1 h2 h3]
    by_cases hXnil : dedupAdj (processDiscard (contentLinesOf vttContent.data)) = []
    · have h0 : stripVttNonContent vttContent false = "" := by
        rw [hform, hXnil]
        rfl
      rw [h0, hzero]
    · have hfacts : ∀ l ∈ dedupAdj (processDiscard (contentLinesOf vttContent.data)),
          containsSub arrowPat l = false ∧
          containsSub alignPat l = false ∧ containsSub positionPat l = false ∧
          hasTag l = false ∧ trimChars l = l ∧ l ≠ [] := by
        intro l hl
        obtain ⟨src, hs, ha, hal, hpp, heq, hne⟩ := discard_out_spec hl
        have htag : hasTag src = false := hclean src hs
        have hls : l = trimChars src := by rw [heq, stripTags_id htag]
        rw [hls]
        exact ⟨contains_trim_false ha, contains_trim_false hal, contains_trim_false hpp,
          hasTag_trim_false htag, trim_idem src, fun hx => hne (by rw [hls, hx])⟩
      have hnl : ∀ l ∈ dedupAdj (processDiscard (contentLinesOf vttContent.data)),
          ('\n' : Char) ∉ l := by
        intro l hl
        obtain ⟨src, hs, _, _, _, heq, _⟩ := discard_out_spec hl
        exact content_line_no_newline hs heq
      have hw : (wrapVtt (stripVttNonContent vttContent false)).data =
          "WEBVTT".data ++ '\n' ::
            joinLines (dedupAdj (processDiscard (contentLinesOf vttContent.data))) := by
        rw [hform]
        unfold wrapVtt
        rw [String.data_append]
        rw [show ("WEBVTT\n" : String).data = "WEBVTT".data ++ ['\n'] from by decide]
        simp
      have hwsplit : splitLines (wrapVtt (stripVttNonContent vttContent false)).data =
          "WEBVTT".data :: dedupAdj (processDiscard (contentLinesOf vttContent.data)) := by
        rw [hw]
        unfold splitLines
        rw [splitOnChar_append_sep _ (by decide)]
        have := splitLines_joinLines hXnil hnl
        rw [splitLines] at this
        rw [this]
      have hwtrim : trimChars (wrapVtt (stripVttNonContent vttContent false)).data ≠ [] := by
        apply trim_ne_nil_of_mem (c := 'W')
        · rw [hw]
          exact List.mem_append.mpr (Or.inl (by decide))
        · decide
      have hwlen : ¬((splitLines
          (wrapVtt (stripVttNonContent vttContent false)).data).length < 2) := by
        rw [hwsplit]
        have := List.length_pos.mpr hXnil
        simp only [List.length_cons]
        omega
      have hwmark : containsSub webvttPat
          ((splitLines (wrapVtt (stripVttNonContent vttContent false)).data).headD []) = true := by
        rw [hwsplit]
        rw [show (("WEBVTT".data ::
          dedupAdj (processDiscard (contentLinesOf vttContent.data))).headD []) =
          "WEBVTT".data from rfl]
        decide
      have hwcontent : contentLinesOf (wrapVtt (stripVttNonContent vttContent false)).data =
          dedupAdj (processDiscard (contentLinesOf vttContent.data)) := by
        unfold contentLinesOf
        rw [hwsplit]
        rw [show (("WEBVTT".data ::
          dedupAdj (processDiscard (contentLinesOf vttContent.data))).drop 1) =
          dedupAdj (processDiscard (contentLinesOf vttContent.data)) from rfl]
        rw [findHeaderEnd_one (noHeaderBoundary_of_nonblank
          (fun l hl => by rw [(hfacts l hl).2.2.2.2.1]; exact (hfacts l hl).2.2.2.2.2)) 1]
        rfl
      have hfinal : stripVttNonContent (wrapVtt (stripVttNonContent vttContent false)) false =
          String.mk (stripVttCore (wrapVtt (stripVttNonContent vttContent false)).data false) := rfl
      rw [hfinal]
      rw [stripVttCore_accepted_discard hwtrim hwlen hwmark, hwcontent]
      rw [processDiscard_eq_self hfacts, dedupAdj_eq_self (adjacentDistinct_dedupAdj _)]
      rw [hform]

/-- C7 counterexample: for the accepted document `"WEBVTT\n--<c>>"` the
first normalization yields `-->`; re-wrapping and normalizing again yields
the empty string, not the first output. -/
theorem claim_C7_counterexample :
    stripVttNonContent (wrapVtt (stripVttNonContent spliceDoc false)) false ≠
      stripVttNonContent spliceDoc false := by decide

/-- C7 witness: the amended idempotence applied to the specification's
concrete scenario document. -/
theorem claim_C7_witness :
    (∀ l ∈ splitLines specDoc.data, hasTag l = false) ∧
    stripVttNonContent (wrapVtt (stripVttNonContent specDoc false)) false =
      stripVttNonContent specDoc false :=
  ⟨by decide, claim_C7_idempotent specDoc (by decide)⟩

/-! ## Claim C10 -/

/-- C10: for every document whose first line contains `WEBVTT` but which
contains no blank line immediately followed by a line containing `-->`, the
header skip removes only the first line, so any later non-blank metadata
line free of cue/positioning tokens and inline tags (such as
`Kind: captions` or `Language: en`) appears, trimmed, in the output of both
modes. -/
theorem claim_C10_header_metadata (vttContent : String) (l : List Char)
    (hmark : containsSub webvttPat ((splitLines vttContent.data).headD []) = true)
    (hnb : noHeaderBoundary ((splitLines vttContent.data).drop 1) = true)
    (hl : l ∈ (splitLines vttContent.data).drop 1)
    (hblank : trimChars l ≠ [])
    (harrow : containsSub arrowPat l = false)
    (halign : containsSub alignPat l = false)
    (hpos : containsSub positionPat l = false)
    (htag : hasTag l = false) :
    trimChars l ∈ splitLines (stripVttNonContent vttContent false).data ∧
    trimChars l ∈ splitLines (stripVttNonContent vttContent true).data := by
  have htrim : trimChars vttContent.data ≠ [] := by
    have hW : ('W' : Char) ∈ (splitLines vttContent.data).headD [] := by
      rw [show webvttPat = 'W' :: "EBVTT".data from rfl] at hmark
      exact containsSub_head_mem hmark
    have hWv : ('W' : Char) ∈ vttContent.data := by
      cases hsp : splitLines vttContent.data with
      | nil => exact absurd hsp (splitOnChar_ne_nil _ _)
      | cons x xs =>
        rw [hsp] at hW
        exact mem_of_mem_splitOnChar (hsp ▸ List.mem_cons_self x xs) hW
    exact trim_ne_nil_of_mem hWv (by decide)
  have hlen : ¬((splitLines vttContent.data).length < 2) := by
    have hne : (splitLines vttContent.data).drop 1 ≠ [] := by
      intro hx
      rw [hx] at hl
      simp at hl
    have := List.length_pos.mpr hne
    rw [List.length_drop] at this
    omega
  have hcontent : contentLinesOf vttContent.data = (splitLines vttContent.data).drop 1 := by
    unfold contentLinesOf
    rw [findHeaderEnd_one hnb 1]
  have h5 : trimChars (stripTags l) ≠ [] := by
    rw [stripTags_id htag]
    exact hblank
  have hgoal : trimChars l = trimChars (stripTags l) := by rw [stripTags_id htag]
  constructor
  · have hmem : trimChars (stripTags l) ∈
        processDiscard (contentLinesOf vttContent.data) := by
      rw [hcontent]
      exact processDiscard_mem hl harrow halign hpos hblank h5
    have hmem2 := mem_dedupAdj hmem
    have hout : (stripVttNonContent vttContent false).data =
        joinLines (dedupAdj (processDiscard (contentLinesOf vttContent.data))) := by
      show stripVttCore vttContent.data false = _
      exact stripVttCore_accepted_discard htrim hlen hmark
    rw [hout]
    have hnl : ∀ x ∈ dedupAdj (processDiscard (contentLinesOf vttContent.data)),
        ('\n' : Char) ∉ x := by
      intro x hx
      obtain ⟨src, hs, _, _, _, heq, _⟩ := discard_out_spec hx
      exact content_line_no_newline hs heq
    rw [splitLines_joinLines (fun hx => by rw [hx] at hmem2; simp at hmem2) hnl]
    rw [hgoal]
    exact hmem2
  · have hmem : trimChars (stripTags l) ∈
        processPreserve (contentLinesOf vttContent.data) := by
      rw [hcontent]
      exact processPreserve_mem hl harrow halign hpos hblank h5
    have hout : (stripVttNonContent vttContent true).data =
        joinLines (processPreserve (contentLinesOf vttContent.data)) := by
      show stripVttCore vttContent.data true = _
      exact stripVttCore_accepted_preserve htrim hlen hmark
    rw [hout]
    rw [splitLines_joinLines (fun hx => by rw [hx] at hmem; simp at hmem)
      (fun x hx => preserve_out_no_newline hx)]
    rw [hgoal]
    exact hmem

/-- C10 witness: the metadata lines of a headerless-boundary document
survive into both outputs. -/
theorem claim_C10_witness :
    (containsSub webvttPat ((splitLines ("WEBVTT\nKind: captions\nLanguage: en" : String).data).headD []) = true ∧
      noHeaderBoundary ((splitLines ("WEBVTT\nKind: captions\nLanguage: en" : String).data).drop 1) = true ∧
      "Kind: captions".data ∈ (splitLines ("WEBVTT\nKind: captions\nLanguage: en" : String).data).drop 1) ∧
    trimChars "Kind: captions".data ∈
      splitLines (stripVttNonContent "WEBVTT\nKind: captions\nLanguage: en" false).data ∧
    trimChars "Kind: captions".data ∈
      splitLines (stripVttNonContent "WEBVTT\nKind: captions\nLanguage: en" true).data :=
  ⟨⟨by decide, by decide, by decide⟩,
    claim_C10_header_metadata "WEBVTT\nKind: captions\nLanguage: en" "Kind: captions".data
      (by decide) (by decide) (by decide) (by decide) (by decide) (by decide) (by decide)
      (by decide)⟩

/-! ## Claim C3 -/

/-- C3: with the default budget of 3 attempts, an operation that fails twice
with retryable failures and succeeds on the third invocation returns the
success value with the thunk invoked exactly three times; an operation whose
first failure is classified non-retryable is invoked exactly once and that
failure is propagated immediately. -/
theorem claim_C3_retry_budget {T : Type} (op : Nat → Except JsError T) (delay : Nat) :
    (∀ (v : T) (e1 e2 : JsError), op 1 = .error e1 → retryableErr e1 = true →
      op 2 = .error e2 → retryableErr e2 = true → op 3 = .ok v →
      (withRetry op 3 delay).outcome = .ok v ∧ (withRetry op 3 delay).calls = 3) ∧
    (∀ e : YouTubeMCPError, op 1 = .error (.mcp e) → e.retryable = false →
      (withRetry op 3 delay).outcome = .threw (.mcp e) ∧
      (withRetry op 3 delay).calls = 1) := by
  constructor
  · intro v e1 e2 h1 hr1 h2 hr2 h3
    constructor <;>
      simp [withRetry, withRetryAux, h1, h2, h3, hr1, hr2]
  · intro e h1 hre
    constructor <;>
      simp [withRetry, withRetryAux, h1, retryableErr, hre]

/-- C3 witness: a thunk succeeding on the third try, and a thunk with an
immediately non-retryable first failure. -/
theorem claim_C3_witness :
    ((withRetry opThirdTry 3 5).outcome = .ok 7 ∧ (withRetry opThirdTry 3 5).calls = 3) ∧
    ((withRetry opDenied 3 5).outcome =
        .threw (.mcp ⟨"denied", "PERMISSION_DENIED", false⟩) ∧
      (withRetry opDenied 3 5).calls = 1) :=
  ⟨(claim_C3_retry_budget opThirdTry 5).1 7 (.plain "boom") (.plain "boom")
      rfl rfl rfl rfl rfl,
    (claim_C3_retry_budget opDenied 5).2 ⟨"denied", "PERMISSION_DENIED", false⟩ rfl rfl⟩

/-! ## Claim C5 -/

theorem withRetryAux_exhaust {T : Type} (op : Nat → Except JsError T)
    (maxRetries delay : Nat) (e : Nat → JsError)
    (hfail : ∀ i, 1 ≤ i → i ≤ maxRetries → op i = .error (e i))
    (hretry : ∀ i, 1 ≤ i → i ≤ maxRetries → retryableErr (e i) = true) :
    ∀ k attempt last, attempt + k = maxRetries → 1 ≤ attempt →
      (withRetryAux op maxRetries delay attempt (k + 1) last).outcome =
        .threw (wrapExhausted maxRetries (e maxRetries)) ∧
      (withRetryAux op maxRetries delay attempt (k + 1) last).calls = k + 1 := by
  intro k
  induction k with
  | zero =>
    intro attempt last hsum h1
    have ha : attempt = maxRetries := by omega
    have hstep : withRetryAux op maxRetries delay attempt 1 last =
        ⟨.threw (wrapExhausted maxRetries (e attempt)), 1, 0⟩ := by
      rw [withRetryAux]
      simp only [hfail attempt h1 (by omega)]
      rw [if_neg (by rw [hretry attempt h1 (by omega)]; simp), if_pos ha]
    rw [hstep, ha]
    exact ⟨rfl, rfl⟩
  | succ n ih =>
    intro attempt last hsum h1
    have hne : ¬(attempt = maxRetries) := by omega
    have hstep : withRetryAux op maxRetries delay attempt (n + 1 + 1) last =
        ⟨(withRetryAux op maxRetries delay (attempt + 1) (n + 1) (some (e attempt))).outcome,
         (withRetryAux op maxRetries delay (attempt + 1) (n + 1) (some (e attempt))).calls + 1,
         (withRetryAux op maxRetries delay (attempt + 1) (n + 1) (some (e attempt))).waited +
           delay * attempt⟩ := by
      rw [withRetryAux]
      simp only [hfail attempt h1 (by omega)]
      rw [if_neg (by rw [hretry attempt h1 (by omega)]; simp), if_neg hne]
    have hrec := ih (attempt + 1) (some (e attempt)) (by omega) (by omega)
    rw [hstep]
    exact ⟨hrec.1, by rw [show (⟨(withRetryAux op maxRetries delay (attempt + 1) (n + 1)
      (some (e attempt))).outcome,
      (withRetryAux op maxRetries delay (attempt + 1) (n + 1) (some (e attempt))).calls + 1,
      (withRetryAux op maxRetries delay (attempt + 1) (n + 1) (some (e attempt))).waited +
        delay * attempt⟩ : RetryTrace T).calls =
      (withRetryAux op maxRetries delay (attempt + 1) (n + 1) (some (e attempt))).calls + 1
      from rfl, hrec.2]⟩

/-- C5: an operation failing on every attempt with retryable (or
unclassified) failures makes `withRetry` propagate a new non-retryable
`UNKNOWN_ERROR` failure whose message carries the attempt count and the last
underlying failure's message, after exactly `maxRetries` invocations. -/
theorem claim_C5_exhaustion {T : Type} (op : Nat → Except JsError T)
    (maxRetries delay : Nat) (e : Nat → JsError)
    (hpos : 1 ≤ maxRetries)
    (hfail : ∀ i, 1 ≤ i → i ≤ maxRetries → op i = .error (e i))
    (hretry : ∀ i, 1 ≤ i → i ≤ maxRetries → retryableErr (e i) = true) :
    (withRetry op maxRetries delay).outcome =
      .threw (.mcp ⟨"Operation failed after " ++ toString maxRetries ++ " attempts: " ++
        (e maxRetries).message, "UNKNOWN_ERROR", false⟩) ∧
    (withRetry op maxRetries delay).calls = maxRetries := by
  obtain ⟨k, hk⟩ : ∃ k, maxRetries = k + 1 := ⟨maxRetries - 1, by omega⟩
  subst hk
  have := withRetryAux_exhaust op (k + 1) delay e hfail hretry k 1 none (by omega) (by omega)
  unfold withRetry
  exact ⟨this.1, this.2⟩

/-- C5 witness: a thunk that always fails with a plain retryable error
exhausts the default budget and surfaces the wrapped terminal failure. -/
theorem claim_C5_witness :
    (withRetry opNetDown 3 5).outcome =
      .threw (.mcp ⟨"Operation failed after " ++ toString 3 ++ " attempts: " ++
        (JsError.plain "net down").message, "UNKNOWN_ERROR", false⟩) ∧
    (withRetry opNetDown 3 5).calls = 3 :=
  claim_C5_exhaustion opNetDown 3 5 (fun _ => .plain "net down") (by decide)
    (fun _ _ _ => rfl) (fun _ _ _ => rfl)

/-! ## Claim C9 -/

/-- C9: with a zero attempt budget the operation is never invoked and the
loop falls through to `throw lastError!` with `lastError` still
uninitialized, throwing the undefined value rather than any classified
failure. -/
theorem claim_C9_zero_budget {T : Type} (op : Nat → Except JsError T) (delay : Nat) :
    (withRetry op 0 delay).outcome = RetryOutcome.threwUndefined ∧
    (withRetry op 0 delay).calls = 0 ∧
    ∀ e : JsError, (withRetry op 0 delay).outcome ≠ RetryOutcome.threw e := by
  refine ⟨rfl, rfl, fun e h => ?_⟩
  rw [show (withRetry op 0 delay).outcome = RetryOutcome.threwUndefined from rfl] at h
  exact RetryOutcome.noConfusion h

/-! ## Claim C4 -/

/-- C4: setting a key with a positive TTL and reading it back at the same
instant returns the stored value; reading after the expiry instant has
passed returns absent and deletes the backing file, so that a following
`cleanup` is a no-op for that key. -/
theorem claim_C4_cache {T : Type} (store : SimpleCache.Store T) (now now2 now3 : Nat)
    (key : String) (v : T) (ttl : Nat) (httl : 0 < ttl) :
    (SimpleCache.get (SimpleCache.set store now key v ttl) now key).1 = some v ∧
    (now + ttl < now2 →
      (SimpleCache.get (SimpleCache.set store now key v ttl) now2 key).1 = none ∧
      (SimpleCache.get (SimpleCache.set store now key v ttl) now2 key).2
        (SimpleCache.getCacheFile key) = none ∧
      SimpleCache.cleanup
          ((SimpleCache.get (SimpleCache.set store now key v ttl) now2 key).2) now3
          (SimpleCache.getCacheFile key) =
        ((SimpleCache.get (SimpleCache.set store now key v ttl) now2 key).2)
          (SimpleCache.getCacheFile key)) := by
  have hset : SimpleCache.set store now key v ttl (SimpleCache.getCacheFile key) =
      some ⟨v, now, now + ttl⟩ := by
    unfold SimpleCache.set
    rw [if_pos rfl, if_neg (by omega)]
  constructor
  · unfold SimpleCache.get
    simp only [hset]
    rw [if_neg (by omega)]
  · intro h2
    have hget2 : (SimpleCache.get (SimpleCache.set store now key v ttl) now2 key) =
        (none, fun f => if f = SimpleCache.getCacheFile key then none
          else SimpleCache.set store now key v ttl f) := by
      unfold SimpleCache.get
      simp only [hset]
      rw [if_pos (by omega)]
    refine ⟨by rw [hget2], by rw [hget2]; simp, ?_⟩
    rw [hget2]
    unfold SimpleCache.cleanup
    simp

/-- C4 witness: a concrete set/get/expire/cleanup run. -/
theorem claim_C4_witness :
    ((0 : Nat) < 10 ∧ (0 : Nat) + 10 < 11) ∧
    (SimpleCache.get (SimpleCache.set (fun _ => none) 0 "k" (5 : Nat) 10) 0 "k").1 = some 5 ∧
    ((SimpleCache.get (SimpleCache.set (fun _ => none) 0 "k" (5 : Nat) 10) 11 "k").1 = none ∧
      (SimpleCache.get (SimpleCache.set (fun _ => none) 0 "k" (5 : Nat) 10) 11 "k").2
        (SimpleCache.getCacheFile "k") = none ∧
      SimpleCache.cleanup
          ((SimpleCache.get (SimpleCache.set (fun _ => none) 0 "k" (5 : Nat) 10) 11 "k").2) 12
          (SimpleCache.getCacheFile "k") =
        ((SimpleCache.get (SimpleCache.set (fun _ => none) 0 "k" (5 : Nat) 10) 11 "k").2)
          (SimpleCache.getCacheFile "k")) :=
  ⟨⟨by decide, by decide⟩,
    (claim_C4_cache (fun _ => none) 0 11 12 "k" 5 10 (by decide)).1,
    (claim_C4_cache (fun _ => none) 0 11 12 "k" 5 10 (by decide)).2 (by decide)⟩

/-! ## Claim C8

The claim is refuted: the code has no `InvalidInput` kind at all.  A
malformed time range throws a plain unclassified `Error` (which the retry
executor would treat as retryable), and `handleYtDlpError` classifies such
a message as `UNKNOWN_ERROR` with `retryable = true`. -/

/-- C8 (amended): a time string with the wrong number of `:`-separated parts
makes `parseTimeToSeconds` throw a plain unclassified Error; plain errors
are retryable for `withRetry`, the `INVALID_INPUT` code does not exist in
`ErrorCodes`, and `handleYtDlpError` classifies this failure as
`UNKNOWN_ERROR` with `retryable = true`, for every url. -/
theorem claim_C8_invalid_time (url : String) :
    parseTimeToSeconds "12" =
      .error (.plain "Invalid time format: 12. Use MM:SS or HH:MM:SS") ∧
    retryableErr (.plain "Invalid time format: 12. Use MM:SS or HH:MM:SS") = true ∧
    "INVALID_INPUT" ∉ ErrorCodesList ∧
    handleYtDlpError (.plain "Invalid time format: 12. Use MM:SS or HH:MM:SS") url =
      ⟨"Unexpected error: Invalid time format: 12. Use MM:SS or HH:MM:SS",
        "UNKNOWN_ERROR", true⟩ := by
  refine ⟨by rfl, rfl, by decide, ?_⟩
  unfold handleYtDlpError
  rw [if_neg (by decide), if_neg (by decide), if_neg (by decide), if_neg (by decide),
    if_neg (by decide)]
  decide

/-- C8 counterexample: the failure produced by the malformed time string
`"12"` is classified with `retryable = true` and code `UNKNOWN_ERROR`, not
as a non-retryable `InvalidInput` failure. -/
theorem claim_C8_counterexample :
    (handleYtDlpError (.plain "Invalid time format: 12. Use MM:SS or HH:MM:SS") "u").retryable
      = true ∧
    (handleYtDlpError (.plain "Invalid time format: 12. Use MM:SS or HH:MM:SS") "u").code
      = "UNKNOWN_ERROR" := by decide

/-! ## Claim C6 -/

/-- C6: every input that is empty, whitespace-only, or whose first line
lacks the `WEBVTT` marker token normalizes to the empty string in both
modes.  (The embedding is a total function, matching the source's
never-throws guarantee.) -/
theorem claim_C6_reject (vttContent : String) (preserveTiming : Bool)
    (h : trimChars vttContent.data = [] ∨
      containsSub webvttPat ((splitLines vttContent.data).headD []) = false) :
    stripVttNonContent vttContent preserveTiming = "" := by
  show String.mk (stripVttCore vttContent.data preserveTiming) = ""
  rcases h with h | h
  · rw [stripVttCore_rejected preserveTiming (Or.inl h)]
  · rw [stripVttCore_rejected preserveTiming (Or.inr (Or.inr h))]

/-- C6 witness: a non-VTT two-line document normalizes to the empty string;
so does a whitespace-only document. -/
theorem claim_C6_witness :
    ((trimChars ("hello\nworld" : String).data = [] ∨
      containsSub webvttPat ((splitLines ("hello\nworld" : String).data).headD []) = false) ∧
      stripVttNonContent "hello\nworld" true = "") ∧
    ((trimChars ("   " : String).data = [] ∨
      containsSub webvttPat ((splitLines ("   " : String).data).headD []) = false) ∧
      stripVttNonContent "   " false = "") :=
  ⟨⟨Or.inr (by decide), claim_C6_reject "hello\nworld" true (Or.inr (by decide))⟩,
    ⟨Or.inl (by decide), claim_C6_reject "   " false (Or.inl (by decide))⟩⟩

end YtMcp
